import Mathlib

/-!
gocache: the LRU store (`lru/lru.go`) and the proxy shard worker (`proxy/proxy.go`).

Shallow embedding.

* A Go `map[interface{}]*list.Element` is an association list from keys to node addresses.
* A `container/list` list is the sequence of its nodes, front first; a node (`*list.Element`)
  is identified by its address.  Addresses are handed out by a counter kept in the state.
* An operation returns `none` when the Go code fails at run time (a nil `list`, a map key
  that cannot be hashed), and also when the index holds the address of a node that is not in
  the list: such a state is outside what the embedding describes.  Neither happens on a
  well-formed store (`WF`), which is what `New` and the methods produce.
* Instants and durations are integers (nanoseconds); `time.Time.After` is `>` and
  `time.Time.Add` is `+`.
-/

namespace lru

/-! ## Go maps from keys to node addresses -/

/-- Map read `m[key]`: the address stored under `key`, if any. -/
def mapGet {K : Type} [DecidableEq K] : List (K × Nat) → K → Option Nat
  | [], _ => none
  | (k, a) :: m, key => if k = key then some a else mapGet m key

/-- Builtin `delete(m, key)`. -/
def mapDelete {K : Type} [DecidableEq K] (m : List (K × Nat)) (key : K) : List (K × Nat) :=
  m.filter (fun p => !decide (p.1 = key))

/-- Map write `m[key] = a`. -/
def mapSet {K : Type} [DecidableEq K] (m : List (K × Nat)) (key : K) (a : Nat) : List (K × Nat) :=
  (key, a) :: mapDelete m key

/-! ## `container/list` -/

/-- The payload `*element` of a list node. -/
structure element (K V : Type) where
  key : K
  value : V
deriving DecidableEq, Repr

/-- A node `*list.Element`: its address and the `*element` stored in `Value`. -/
structure Element (K V : Type) where
  addr : Nat
  Value : element K V
deriving DecidableEq, Repr

namespace list

variable {K V : Type}

/-- Node lookup by address: `some` when the node belongs to the list (`e.list == l`). -/
def node (l : List (Element K V)) (e : Nat) : Option (Element K V) :=
  l.find? (fun x => decide (x.addr = e))

/-- `l.PushFront(v)`, the new node being allocated at address `a`. -/
def PushFront (l : List (Element K V)) (a : Nat) (v : element K V) : List (Element K V) :=
  ⟨a, v⟩ :: l

/-- `l.Remove(e)`: unlinks the node at address `e` if it belongs to the list. -/
def Remove (l : List (Element K V)) (e : Nat) : List (Element K V) :=
  l.filter (fun x => !decide (x.addr = e))

/-- `l.MoveToFront(e)`: nothing happens when `e` is not a node of `l` or is already the
front node; otherwise the node is unlinked and linked again at the front. -/
def MoveToFront (l : List (Element K V)) (e : Nat) : List (Element K V) :=
  match node l e with
  | none => l
  | some x =>
    match l with
    | [] => l
    | y :: _ => if y.addr = e then l else x :: Remove l e

/-- `l.Back()`: the last node, or nil. -/
def Back (l : List (Element K V)) : Option (Element K V) :=
  l.getLast?

/-- `l.Len()`. -/
def Len (l : List (Element K V)) : Nat :=
  l.length

/-- The assignment `item.Value.(*element).value = value` through the node pointer `e`. -/
def setValue (l : List (Element K V)) (e : Nat) (value : V) : List (Element K V) :=
  l.map (fun x => if x.addr = e then { x with Value := { x.Value with value := value } } else x)

end list

/-! ## `lru.Cache` -/

/-- The struct `Cache`; `hash` and `list` are nil (`none`) until the first `Set`.
`heap` is the next unused node address. -/
structure Cache (K V : Type) where
  Size : Int
  hash : Option (List (K × Nat))
  list : Option (List (Element K V))
  heap : Nat
deriving DecidableEq, Repr

variable {K V : Type} [DecidableEq K]

/-- `New(size)`. -/
def New (size : Int) : Cache K V :=
  { Size := size, hash := none, list := none, heap := 0 }

/-- `cache.Len()`. -/
def Len (cache : Cache K V) : Nat :=
  match cache.list with
  | some l => list.Len l
  | none => 0

/-- `cache.Evict()`. -/
def Evict (cache : Cache K V) : Option (Cache K V) :=
  match cache.hash with
  | none => some cache
  | some h =>
    match cache.list with
    | none => none
    | some l =>
      match list.Back l with
      | none => some cache
      | some item =>
        some { cache with
          list := some (list.Remove l item.addr)
          hash := some (mapDelete h item.Value.key) }

/-- `cache.Set(key, value)`. -/
def Set (cache : Cache K V) (key : K) (value : V) : Option (Cache K V) :=
  let cache : Cache K V :=
    match cache.hash with
    | none => { cache with hash := some [], list := some [] }
    | some _ => cache
  match cache.hash, cache.list with
  | some h, some l =>
    match mapGet h key with
    | some item =>
      match list.node l item with
      | none => none
      | some _ =>
        some { cache with list := some (list.setValue (list.MoveToFront l item) item value) }
    | none =>
      let entry := cache.heap
      let l := list.PushFront l entry { key := key, value := value }
      let cache : Cache K V :=
        { cache with hash := some (mapSet h key entry), list := some l, heap := entry + 1 }
      if cache.Size ≠ 0 ∧ (list.Len l : Int) > cache.Size then Evict cache else some cache
  | _, _ => none

/-- `cache.Get(key)`: the pair `(value, ok)` (a nil `value` is `none`) and the cache after
the call. -/
def Get (cache : Cache K V) (key : K) : Option ((Option V × Bool) × Cache K V) :=
  match cache.hash with
  | none => some ((none, false), cache)
  | some h =>
    match mapGet h key with
    | none => some ((none, false), cache)
    | some item =>
      match cache.list with
      | none => none
      | some l =>
        match list.node l item with
        | none => none
        | some x => some ((some x.Value.value, true), { cache with list := some (list.MoveToFront l item) })

/-- `cache.Remove(key)`: the result `ok` and the cache after the call. -/
def Remove (cache : Cache K V) (key : K) : Option (Bool × Cache K V) :=
  match cache.hash with
  | none => some (false, cache)
  | some h =>
    match mapGet h key with
    | none => some (false, cache)
    | some item =>
      match cache.list with
      | none => none
      | some l =>
        match list.node l item with
        | none => none
        | some x =>
          some (true, { cache with
            list := some (list.Remove l item)
            hash := some (mapDelete h x.Value.key) })

/-- The recency order of the store: the `(key, value)` pairs from the front of the list
(most recently used) to its back (least recently used). -/
def entries (cache : Cache K V) : List (K × V) :=
  match cache.list with
  | some l => l.map (fun x => (x.Value.key, x.Value.value))
  | none => []

/-- The keys of the store in recency order. -/
def keys (cache : Cache K V) : List K :=
  (entries cache).map Prod.fst

/-- The index and the list describe the same nodes: the indexed keys are distinct, the nodes
have distinct addresses below the allocation mark `n`, and the index holds `key ↦ a`
exactly when the node at address `a` carries `key`. -/
structure Linked (h : List (K × Nat)) (l : List (Element K V)) (n : Nat) : Prop where
  keys_nodup : (h.map Prod.fst).Nodup
  addr_nodup : (l.map Element.addr).Nodup
  addr_lt : ∀ x ∈ l, x.addr < n
  index : ∀ k a, mapGet h k = some a ↔ ∃ x ∈ l, x.Value.key = k ∧ x.addr = a

/-- Well-formed stores: `hash` and `list` are both nil, or both allocated and linked. -/
def WF (cache : Cache K V) : Prop :=
  match cache.hash, cache.list with
  | none, none => True
  | some h, some l => Linked h l cache.heap
  | _, _ => False

/-- A call of one of the four mutating methods. -/
inductive Call (K V : Type) where
  | Set (key : K) (value : V) : Call K V
  | Get (key : K) : Call K V
  | Remove (key : K) : Call K V
  | Evict : Call K V
deriving DecidableEq, Repr

/-- The store after one call. -/
def step (cache : Cache K V) : Call K V → Option (Cache K V)
  | .Set key value => Set cache key value
  | .Get key => (Get cache key).map Prod.snd
  | .Remove key => (Remove cache key).map Prod.snd
  | .Evict => Evict cache

/-- The store after a sequence of calls, made one after the other. -/
def run (cache : Cache K V) : List (Call K V) → Option (Cache K V)
  | [] => some cache
  | call :: calls =>
    match step cache call with
    | none => none
    | some cache => run cache calls

/-- The keys of the index `cache.hash`; there are `len(cache.hash)` of them. -/
def indexed (cache : Cache K V) : List K :=
  match cache.hash with
  | some h => h.map Prod.fst
  | none => []

/-- The store of the package example: `New(2)` after `Set("key-a", "a")` and
`Set("key-b", "b")`. -/
def sample : Cache String String :=
  { Size := 2
    hash := some [("key-b", 1), ("key-a", 0)]
    list := some [⟨1, ⟨"key-b", "b"⟩⟩, ⟨0, ⟨"key-a", "a"⟩⟩]
    heap := 2 }

end lru

namespace proxy

/-! ## The shard worker of `proxy.Cache` -/

/-- A Go `interface{}` as the proxy sees it: nil, a boolean, or a payload of the caller. -/
inductive Value (D : Type) where
  | nil : Value D
  | bool (b : Bool) : Value D
  | data (d : D) : Value D
deriving DecidableEq, Repr

/-- The struct `entry`; times are instants in nanoseconds. -/
structure entry (D : Type) where
  data : Value D
  expiry : Int
deriving DecidableEq, Repr

/-- The `lru.Key` values (`interface{}`) that the shard hands to its store: the string
`query.key` (to `Get` and `Set`) and the looked-up `entry` (to `Remove`). -/
inductive Key (D : Type) where
  | str (s : String) : Key D
  | ent (e : entry D) : Key D
deriving DecidableEq, Repr

/-- Whether the Go runtime can hash a payload: `comparable d` tells whether the dynamic type
of the caller's payload `d` is comparable. -/
def Value.hashable {D : Type} (comparable : D → Bool) : Value D → Bool
  | .nil => true
  | .bool _ => true
  | .data d => comparable d

/-- Whether a key can be used in a map access without a run-time panic. -/
def Key.hashable {D : Type} (comparable : D → Bool) : Key D → Bool
  | .str _ => true
  | .ent e => e.data.hashable comparable

/-- The struct `Metrics`. -/
structure Metrics where
  Request : Bool
  Hit : Bool
  Expired : Bool
  Miss : Bool
  Done : Bool
  Shard : String
  Latency : Int
deriving DecidableEq, Repr

/-- The three outcome flags `(Hit, Miss, Expired)` of a `Metrics`. -/
def Metrics.outcome (m : Metrics) : Bool × Bool × Bool :=
  (m.Hit, m.Miss, m.Expired)

/-- The struct `Result`: the embedded `Metrics` and the field `Request interface{}`, which
is the one a selector `result.Request` denotes. -/
structure Result (D : Type) where
  Metrics : Metrics
  Request : Value D
deriving DecidableEq, Repr

/-- The struct `query`, without its reply channel; `producer` is `producer.Request`, giving
`(result, err)` with `err = none` for a nil error. -/
structure query (D E : Type) where
  result : Result D
  key : String
  producer : String → Value D × Option E

/-- What one iteration of the worker loop has done when it ends or blocks: the store, the
caller's `*query.result`, the values sent on `query.reply` in order (each with the contents
of `*query.result` at the time of the send), and the keys passed to `producer.Request`. -/
structure Served (D E : Type) where
  cache : lru.Cache (Key D) (entry D)
  result : Result D
  replies : List (Option E × Result D)
  requests : List String
deriving DecidableEq, Repr

variable {D E : Type} [DecidableEq D]

/-- Lines 149-164 of the worker loop: the lookup and the hit / expired / miss branches.
`now` is the clock reading of line 155. -/
def lookup (comparable : D → Bool) (expiration : Int) (cache : lru.Cache (Key D) (entry D))
    (now : Int) (q : query D E) :
    Option (lru.Cache (Key D) (entry D) × Result D × List (Option E × Result D)) :=
  match lru.Get cache (Key.str q.key) with
  | none => none
  | some ((element, ok), cache) =>
    if !ok then
      some (cache, { q.result with Metrics := { q.result.Metrics with Miss := true } }, [])
    else
      match element with
      | none => none
      | some item =>
        if expiration ≠ 0 ∧ now > item.expiry then
          let result : Result D := { q.result with Metrics := { q.result.Metrics with Expired := true } }
          if (Key.ent item).hashable comparable then
            match lru.Remove cache (Key.ent item) with
            | none => none
            | some (_, cache) => some (cache, result, [])
          else none
        else
          let result : Result D :=
            { Metrics := { q.result.Metrics with Hit := true }, Request := item.data }
          some (cache, result, [(none, result)])

/-- One iteration of the worker loop of `shard.start` (lines 149-175) for the query `q`, on
a shard configured with `expiration`.  `now` is the clock reading of line 155 and `now2`
the one of line 171. -/
def serve (comparable : D → Bool) (expiration : Int) (cache : lru.Cache (Key D) (entry D))
    (now now2 : Int) (q : query D E) : Option (Served D E) :=
  match lookup comparable expiration cache now q with
  | none => none
  | some (cache, result, replies) =>
    match q.producer q.key with
    | (data, none) =>
      let result : Result D := { result with Request := data }
      match lru.Set cache (Key.str q.key) { data := data, expiry := now2 + expiration } with
      | none => none
      | some cache =>
        some { cache := cache, result := result, replies := replies ++ [(none, result)],
               requests := [q.key] }
    | (_, some err) =>
      some { cache := cache, result := result, replies := replies ++ [(some err, result)],
             requests := [q.key] }

/-- Lines 111-115 of `Cache.Get`: `err = <-reply` receives the first value sent on the reply
channel, and `Done` is set when it is not nil.  Gives the error and `*query.result` as it
stands at that receive, or `none` when nothing is ever sent.  On the miss and expired
branches the worker writes nothing after its single send, so this is the result that `Get`
returns (up to `Latency`).  On the hit branch the worker goes on after the send and may
assign `result.Request` again before `Get` copies the result at its `return`: there the
flags are those that `Get` returns, while the `Request` field is only what the result held
when the reply was sent. -/
def receive (o : Served D E) : Option (Result D × Option E) :=
  match o.replies with
  | [] => none
  | (none, result) :: _ => some (result, none)
  | (some err, result) :: _ =>
    some ({ result with Metrics := { result.Metrics with Done := true } }, some err)

/-- The zero `Result` with which `Cache.Get` starts, after `result.Request = true` (line 94)
and `result.Shard = ...` (line 100). -/
def request (shard : String) : Result D :=
  { Metrics := { Request := false, Hit := false, Expired := false, Miss := false,
                 Done := false, Shard := shard, Latency := 0 },
    Request := Value.bool true }

/-- A shard store of capacity 4 whose only entry caches `"old"` under the key `"k"`, with
expiry instant 100. -/
def cached : lru.Cache (Key String) (entry String) :=
  { Size := 4
    hash := some [(Key.str "k", 0)]
    list := some [⟨0, ⟨Key.str "k", ⟨Value.data "old", 100⟩⟩⟩]
    heap := 1 }

/-- A producer that succeeds with the payload `"new"`. -/
def succeed : String → Value String × Option String :=
  fun _ => (Value.data "new", none)

/-- A producer that fails with the error `"boom"`. -/
def fail : String → Value String × Option String :=
  fun _ => (Value.nil, some "boom")

/-! ## `proxy.Cache`: allocation of the shards and `Get` -/

/-- The package variable `DefaultPartitionCount`, at its initial value. -/
def DefaultPartitionCount : Int := 64

/-- The package variable `DefaultCacheSize`, at its initial value. -/
def DefaultCacheSize : Int := 4096

/-- The UTF-8 encoding of a character: the bytes a Go string holds for it. -/
def utf8 (c : Char) : List Nat :=
  let n := c.toNat
  if n < 128 then [n]
  else if n < 2048 then [192 + n / 64, 128 + n % 64]
  else if n < 65536 then [224 + n / 4096, 128 + n / 64 % 64, 128 + n % 64]
  else [240 + n / 262144, 128 + n / 4096 % 64, 128 + n / 64 % 64, 128 + n % 64]

/-- The bytes of the string `key`, as `io.WriteString` writes them. -/
def bytes (key : String) : List Nat :=
  (key.data.map utf8).flatten

/-- The hash `fnv.New32()` after the bytes `data` have been written, as `Sum32()` gives it:
32-bit FNV-1, that is `hash *= prime32; hash ^= c` on `uint32` for every byte `c`, from the
offset basis 2166136261. -/
def Sum32 (data : List Nat) : Nat :=
  data.foldl (fun hash c => (hash * 16777619 % 2 ^ 32) ^^^ c) 2166136261

/-- The struct `shard` with its worker: the store, the `expiration` that the worker closure
has captured, and whether the worker is blocked for good in a send on a reply channel that
has no receiver left (`stuck`); the `queue` channel itself is not represented. -/
structure shard (D : Type) where
  cache : lru.Cache (Key D) (entry D)
  expiration : Int
  stuck : Bool
deriving DecidableEq, Repr

/-- The method `shard.start(size, expiration)`. -/
def shard.start (size expiration : Int) : shard D :=
  let size := if size = 0 then DefaultCacheSize else size
  { cache := lru.New size, expiration := expiration, stuck := false }

/-- The struct `proxy.Cache`; `once` tells whether `cache.once.Do` has run. -/
structure Cache (D : Type) where
  PartitionCount : Int
  CacheSize : Int
  Expiration : Int
  shards : List (shard D)
  once : Bool
deriving DecidableEq, Repr

/-- The method `cache.start()`; `make([]shard, count)` panics on a negative `count`. -/
def Cache.start (cache : Cache D) : Option (Cache D) :=
  let count := if cache.PartitionCount = 0 then DefaultPartitionCount else cache.PartitionCount
  if count < 0 then none
  else
    some { cache with
      shards := List.replicate count.toNat (shard.start cache.CacheSize cache.Expiration) }

/-- The call `cache.once.Do(cache.start)`. -/
def Cache.onceDo (cache : Cache D) : Option (Cache D) :=
  if cache.once then some cache
  else (Cache.start cache).map (fun c => { c with once := true })

/-- `cache.Get(key, producer)` on a platform with 64-bit `int`.  `t0` is the clock reading of
line 93, `now` and `now2` are those of the worker (lines 155 and 171) and `t1` the one of
line 117.  Gives the returned `(result, err)` and the proxy after the call, the worker having
gone as far as it gets; `none` when `Get` does not return (a panic, or a worker that is
stuck and never takes the query). -/
def Cache.Get (comparable : D → Bool) (cache : Cache D) (t0 now now2 t1 : Int) (key : String)
    (producer : String → Value D × Option E) : Option ((Result D × Option E) × Cache D) :=
  match Cache.onceDo cache with
  | none => none
  | some cache =>
    let n := Sum32 (bytes key) % cache.shards.length
    let result : Result D := request (toString n)
    match cache.shards[n]? with
    | none => none
    | some shard =>
      if shard.stuck then none
      else
        match serve comparable shard.expiration shard.cache now now2
            { result := result, key := key, producer := producer } with
        | none => none
        | some o =>
          match receive o with
          | none => none
          | some (result, err) =>
            some (({ result with Metrics := { result.Metrics with Latency := t1 - t0 } }, err),
              { cache with
                shards := cache.shards.set n
                  { shard with cache := o.cache, stuck := decide (1 < o.replies.length) } })

/-- The store of a shard after its worker has served the given queries one after the other,
each with the clock readings of its lines 155 and 171. -/
def serveAll (comparable : D → Bool) (expiration : Int) (cache : lru.Cache (Key D) (entry D)) :
    List (Int × Int × query D E) → Option (lru.Cache (Key D) (entry D))
  | [] => some cache
  | (now, now2, q) :: rest =>
    match serve comparable expiration cache now now2 q with
    | none => none
    | some o => serveAll comparable expiration o.cache rest

/-- A proxy with one partition and default capacity, before its first `Get`. -/
def single (expiration : Int) : Cache String :=
  { PartitionCount := 1, CacheSize := 0, Expiration := expiration, shards := [], once := false }

/-- The zero value `Cache{}` of the package test: every configuration field is 0, so the
defaults apply. -/
def zero : Cache String :=
  { PartitionCount := 0, CacheSize := 0, Expiration := 0, shards := [], once := false }

/-- The proxy `zero` after `once.Do(cache.start)`: 64 shards with fresh stores of capacity
4096. -/
def allocated : Cache String :=
  { PartitionCount := 0, CacheSize := 0, Expiration := 0,
    shards := List.replicate 64 { cache := lru.New 4096, expiration := 0, stuck := false },
    once := true }

/-- A started proxy with one partition, expiration 10, whose shard holds the store `cached`
and has a worker waiting for a query. -/
def started : Cache String :=
  { PartitionCount := 1, CacheSize := 4, Expiration := 10,
    shards := [{ cache := cached, expiration := 10, stuck := false }], once := true }

end proxy

/-! # Theorems -/

set_option linter.unusedSectionVars false

namespace lru

variable {K V : Type} [DecidableEq K]

/-! ## Maps -/

theorem mapGet_eq_none_iff (m : List (K × Nat)) (k : K) :
    mapGet m k = none ↔ k ∉ m.map Prod.fst := by
  induction m with
  | nil => simp [mapGet]
  | cons p m ih =>
    obtain ⟨k', a⟩ := p
    by_cases h : k' = k
    · simp [mapGet, h]
    · have h' : ¬ k = k' := fun e => h e.symm
      simp [mapGet, h, h', ih]

theorem mapGet_mapDelete_self (m : List (K × Nat)) (k : K) :
    mapGet (mapDelete m k) k = none := by
  rw [mapGet_eq_none_iff]
  simp [mapDelete, List.mem_filter]

theorem mapGet_mapDelete_ne (m : List (K × Nat)) {k k' : K} (h : k' ≠ k) :
    mapGet (mapDelete m k) k' = mapGet m k' := by
  induction m with
  | nil => simp [mapDelete, mapGet]
  | cons p m ih =>
    obtain ⟨k₀, a⟩ := p
    unfold mapDelete at ih ⊢
    by_cases h₀ : k₀ = k
    · have h₁ : ¬ k = k' := fun e => h e.symm
      simp [List.filter_cons, h₀, mapGet, ih, h₁]
    · by_cases h₁ : k₀ = k'
      · subst h₁
        simp [List.filter_cons, h₀, mapGet]
      · simp [List.filter_cons, h₀, mapGet, h₁, ih]

theorem mapDelete_of_none (m : List (K × Nat)) (k : K) (h : mapGet m k = none) :
    mapDelete m k = m := by
  rw [mapGet_eq_none_iff] at h
  unfold mapDelete
  rw [List.filter_eq_self]
  intro p hp
  have : p.1 ≠ k := fun e => h (List.mem_map.2 ⟨p, hp, e⟩)
  simpa using this

theorem mapDelete_keys_nodup (m : List (K × Nat)) (k : K) (h : (m.map Prod.fst).Nodup) :
    ((mapDelete m k).map Prod.fst).Nodup :=
  h.sublist ((List.filter_sublist m).map Prod.fst)

/-! ## Nodes and the index -/

theorem Linked.node_eq {h : List (K × Nat)} {l : List (Element K V)} {n : Nat}
    (hl : Linked h l n) {x y : Element K V} (hx : x ∈ l) (hy : y ∈ l)
    (e : x.addr = y.addr) : x = y :=
  List.inj_on_of_nodup_map hl.addr_nodup hx hy e

theorem Linked.addr_iff_key {h : List (K × Nat)} {l : List (Element K V)} {n : Nat}
    (hl : Linked h l n) {k : K} {a : Nat} (hg : mapGet h k = some a)
    {y : Element K V} (hy : y ∈ l) : y.addr = a ↔ y.Value.key = k := by
  constructor
  · intro e
    obtain ⟨x, hx, hxk, hxa⟩ := (hl.index k a).1 hg
    have : y = x := hl.node_eq hy hx (e.trans hxa.symm)
    rw [this]; exact hxk
  · intro e
    have := (hl.index k y.addr).2 ⟨y, hy, e, rfl⟩
    rw [hg] at this
    exact (Option.some.inj this).symm

theorem Linked.node_of_get {h : List (K × Nat)} {l : List (Element K V)} {n : Nat}
    (hl : Linked h l n) {k : K} {a : Nat} (hg : mapGet h k = some a) :
    ∃ x, list.node l a = some x ∧ x ∈ l ∧ x.Value.key = k ∧ x.addr = a := by
  obtain ⟨x, hx, hxk, hxa⟩ := (hl.index k a).1 hg
  cases hn : list.node l a with
  | none =>
    unfold list.node at hn
    rw [List.find?_eq_none] at hn
    exact absurd (by simpa using hxa) (hn x hx)
  | some y =>
    unfold list.node at hn
    have hy : y ∈ l := List.mem_of_find?_eq_some hn
    have hya : y.addr = a := by simpa using List.find?_some hn
    exact ⟨y, rfl, hy, (hl.addr_iff_key hg hy).1 hya, hya⟩

theorem Linked.get_of_mem {h : List (K × Nat)} {l : List (Element K V)} {n : Nat}
    (hl : Linked h l n) {x : Element K V} (hx : x ∈ l) :
    mapGet h x.Value.key = some x.addr :=
  (hl.index _ _).2 ⟨x, hx, rfl, rfl⟩

theorem Linked.get_none_iff {h : List (K × Nat)} {l : List (Element K V)} {n : Nat}
    (hl : Linked h l n) (k : K) :
    mapGet h k = none ↔ k ∉ l.map (fun x => x.Value.key) := by
  constructor
  · intro hg hk
    obtain ⟨x, hx, rfl⟩ := List.mem_map.1 hk
    rw [hl.get_of_mem hx] at hg
    exact Option.noConfusion hg
  · intro hk
    cases hg : mapGet h k with
    | none => rfl
    | some a =>
      obtain ⟨x, hx, hxk, _⟩ := (hl.index k a).1 hg
      exact absurd (List.mem_map.2 ⟨x, hx, hxk⟩) hk

theorem list.Remove_eq_self {l : List (Element K V)} {a : Nat}
    (h : a ∉ l.map Element.addr) : list.Remove l a = l := by
  unfold list.Remove
  rw [List.filter_eq_self]
  intro x hx
  have : x.addr ≠ a := fun e => h (List.mem_map.2 ⟨x, hx, e⟩)
  simpa using this

theorem list.perm_cons_Remove {l : List (Element K V)} (hn : (l.map Element.addr).Nodup)
    {x : Element K V} (hx : x ∈ l) : (x :: list.Remove l x.addr).Perm l := by
  induction l with
  | nil => cases hx
  | cons y t ih =>
    rw [List.map_cons, List.nodup_cons] at hn
    by_cases e : y = x
    · subst e
      have : list.Remove (y :: t) y.addr = t := by
        have h1 : list.Remove (y :: t) y.addr = list.Remove t y.addr := by
          simp [list.Remove, List.filter_cons]
        rw [h1, list.Remove_eq_self hn.1]
      rw [this]
    · have hxt : x ∈ t := by
        rcases List.mem_cons.1 hx with h | h
        · exact absurd h.symm e
        · exact h
      have hne : y.addr ≠ x.addr := fun e' => hn.1 (e' ▸ List.mem_map.2 ⟨x, hxt, rfl⟩)
      have h1 : list.Remove (y :: t) x.addr = y :: list.Remove t x.addr := by
        simp [list.Remove, List.filter_cons, hne]
      rw [h1]
      exact (List.Perm.swap y x _).trans ((ih hn.2 hxt).cons y)

theorem list.MoveToFront_eq {l : List (Element K V)} (hn : (l.map Element.addr).Nodup)
    {a : Nat} {x : Element K V} (hx : list.node l a = some x) :
    list.MoveToFront l a = x :: list.Remove l a := by
  unfold list.MoveToFront
  rw [hx]
  cases l with
  | nil => simp [list.node] at hx
  | cons y t =>
    simp only
    split
    · rename_i e
      rw [List.map_cons, List.nodup_cons] at hn
      have hxy : x = y := by
        unfold list.node at hx
        rw [List.find?_cons_of_pos _ (by simpa using e)] at hx
        exact (Option.some.inj hx).symm
      have h1 : list.Remove (y :: t) a = list.Remove t a := by
        simp [list.Remove, List.filter_cons, e]
      rw [h1, list.Remove_eq_self (e ▸ hn.1), hxy]
    · rfl

theorem Linked.of_perm {h : List (K × Nat)} {l l' : List (Element K V)} {n : Nat}
    (hl : Linked h l n) (hp : l'.Perm l) : Linked h l' n where
  keys_nodup := hl.keys_nodup
  addr_nodup := (hp.map Element.addr).nodup_iff.2 hl.addr_nodup
  addr_lt := fun x hx => hl.addr_lt x (hp.mem_iff.1 hx)
  index := fun k a => by
    rw [hl.index]
    constructor
    · rintro ⟨x, hx, hk⟩; exact ⟨x, hp.mem_iff.2 hx, hk⟩
    · rintro ⟨x, hx, hk⟩; exact ⟨x, hp.mem_iff.1 hx, hk⟩

theorem Linked.moveToFront {h : List (K × Nat)} {l : List (Element K V)} {n : Nat}
    (hl : Linked h l n) {a : Nat} {x : Element K V} (hx : list.node l a = some x) :
    Linked h (list.MoveToFront l a) n := by
  have hxl : x ∈ l := List.mem_of_find?_eq_some hx
  have hxa : x.addr = a := by simpa using List.find?_some hx
  rw [list.MoveToFront_eq hl.addr_nodup hx, ← hxa]
  exact hl.of_perm (list.perm_cons_Remove hl.addr_nodup hxl)

theorem Linked.setValue {h : List (K × Nat)} {l : List (Element K V)} {n : Nat}
    (hl : Linked h l n) (a : Nat) (v : V) : Linked h (list.setValue l a v) n := by
  have haddr : (list.setValue l a v).map Element.addr = l.map Element.addr := by
    unfold list.setValue
    rw [List.map_map]
    apply List.map_congr_left
    intro x _
    simp only [Function.comp]
    split <;> rfl
  refine ⟨hl.keys_nodup, haddr ▸ hl.addr_nodup, ?_, ?_⟩
  · intro x hx
    unfold list.setValue at hx
    obtain ⟨y, hy, rfl⟩ := List.mem_map.1 hx
    have := hl.addr_lt y hy
    split <;> simpa using this
  · intro k b
    rw [hl.index]
    unfold list.setValue
    constructor
    · rintro ⟨x, hx, hk, hb⟩
      refine ⟨_, List.mem_map.2 ⟨x, hx, rfl⟩, ?_, ?_⟩ <;> split <;> simpa
    · rintro ⟨x, hx, hk, hb⟩
      obtain ⟨y, hy, rfl⟩ := List.mem_map.1 hx
      refine ⟨y, hy, ?_, ?_⟩
      · revert hk; split <;> simp
      · revert hb; split <;> simp

theorem Linked.remove {h : List (K × Nat)} {l : List (Element K V)} {n : Nat}
    (hl : Linked h l n) {x : Element K V} (hx : x ∈ l) :
    Linked (mapDelete h x.Value.key) (list.Remove l x.addr) n where
  keys_nodup := mapDelete_keys_nodup h _ hl.keys_nodup
  addr_nodup := hl.addr_nodup.sublist ((List.filter_sublist l).map Element.addr)
  addr_lt := fun y hy => hl.addr_lt y (List.mem_filter.1 hy).1
  index := fun k a => by
    have hmem : ∀ y, y ∈ list.Remove l x.addr ↔ y ∈ l ∧ y.addr ≠ x.addr := by
      intro y; simp [list.Remove, List.mem_filter]
    by_cases hk : k = x.Value.key
    · subst hk
      rw [mapGet_mapDelete_self]
      constructor
      · intro e; exact Option.noConfusion e
      · rintro ⟨y, hy, hyk, _⟩
        rw [hmem] at hy
        exact absurd ((hl.addr_iff_key (hl.get_of_mem hx) hy.1).2 hyk) hy.2
    · rw [mapGet_mapDelete_ne h hk, hl.index]
      constructor
      · rintro ⟨y, hy, hyk, hya⟩
        refine ⟨y, (hmem y).2 ⟨hy, fun e => hk ?_⟩, hyk, hya⟩
        rw [← hyk, hl.node_eq hy hx e]
      · rintro ⟨y, hy, hyk, hya⟩
        exact ⟨y, ((hmem y).1 hy).1, hyk, hya⟩

theorem Linked.pushFront {h : List (K × Nat)} {l : List (Element K V)} {n : Nat}
    (hl : Linked h l n) {k : K} (hg : mapGet h k = none) (v : V) :
    Linked (mapSet h k n) (list.PushFront l n { key := k, value := v }) (n + 1) where
  keys_nodup := by
    unfold mapSet
    rw [mapDelete_of_none h k hg, List.map_cons, List.nodup_cons]
    exact ⟨(mapGet_eq_none_iff h k).1 hg, hl.keys_nodup⟩
  addr_nodup := by
    unfold list.PushFront
    rw [List.map_cons, List.nodup_cons]
    refine ⟨fun hm => ?_, hl.addr_nodup⟩
    obtain ⟨y, hy, e⟩ := List.mem_map.1 hm
    have := hl.addr_lt y hy
    rw [e] at this
    exact Nat.lt_irrefl _ this
  addr_lt := fun y hy => by
    rcases List.mem_cons.1 hy with e | hy
    · rw [e]; exact Nat.lt_succ_self n
    · exact Nat.lt_succ_of_lt (hl.addr_lt y hy)
  index := fun k' a => by
    unfold mapSet list.PushFront
    rw [mapDelete_of_none h k hg]
    by_cases hk : k = k'
    · subst hk
      simp only [mapGet, if_true, List.mem_cons]
      constructor
      · intro e
        exact ⟨_, Or.inl rfl, rfl, Option.some.inj e⟩
      · rintro ⟨y, hy | hy, hyk, hya⟩
        · rw [hy] at hya; rw [← hya]
        · have := hl.get_of_mem hy
          rw [hyk, hg] at this
          exact Option.noConfusion this
    · simp only [mapGet, if_neg hk, List.mem_cons]
      rw [hl.index]
      constructor
      · rintro ⟨y, hy, hyk, hya⟩
        exact ⟨y, Or.inr hy, hyk, hya⟩
      · rintro ⟨y, hy | hy, hyk, hya⟩
        · rw [hy] at hyk; exact absurd hyk hk
        · exact ⟨y, hy, hyk, hya⟩

theorem Linked.nil (n : Nat) : Linked ([] : List (K × Nat)) ([] : List (Element K V)) n where
  keys_nodup := List.nodup_nil
  addr_nodup := List.nodup_nil
  addr_lt := fun _ hx => by cases hx
  index := fun k a => by simp [mapGet]

/-! ## The recency order after the list operations -/

theorem Linked.map_Remove {h : List (K × Nat)} {l : List (Element K V)} {n : Nat}
    (hl : Linked h l n) {k : K} {a : Nat} (hg : mapGet h k = some a) :
    (list.Remove l a).map (fun x => (x.Value.key, x.Value.value))
      = (l.map (fun x => (x.Value.key, x.Value.value))).filter (fun p => p.1 ≠ k) := by
  unfold list.Remove
  rw [List.filter_map]
  congr 1
  apply List.filter_congr
  intro y hy
  have := hl.addr_iff_key hg hy
  by_cases e : y.addr = a
  · simp [e, this.1 e]
  · have e' : ¬ y.Value.key = k := fun h' => e (this.2 h')
    simp [e, e']

theorem list.Remove_Back {l : List (Element K V)} (hn : (l.map Element.addr).Nodup)
    {x : Element K V} (hx : list.Back l = some x) : list.Remove l x.addr = l.dropLast := by
  have hsplit : l.dropLast ++ [x] = l := List.dropLast_append_getLast? x hx
  have hn' := hn
  rw [← hsplit, List.map_append, List.nodup_append] at hn'
  have hnot : x.addr ∉ l.dropLast.map Element.addr := by
    intro hm
    exact hn'.2.2 hm (by simp)
  have h1 : list.Remove (l.dropLast ++ [x]) x.addr = list.Remove l.dropLast x.addr := by
    simp [list.Remove, List.filter_append, List.filter_cons]
  rw [← hsplit, h1, list.Remove_eq_self hnot, hsplit]

theorem list.map_setValue_cons (x : Element K V) (t : List (Element K V)) (v : V)
    (ht : x.addr ∉ t.map Element.addr) :
    (list.setValue (x :: t) x.addr v).map (fun y => (y.Value.key, y.Value.value))
      = (x.Value.key, v) :: t.map (fun y => (y.Value.key, y.Value.value)) := by
  unfold list.setValue
  rw [List.map_cons, List.map_cons, List.map_map]
  simp only [if_true]
  congr 1
  apply List.map_congr_left
  intro y hy
  have : y.addr ≠ x.addr := fun e => ht (List.mem_map.2 ⟨y, hy, e⟩)
  simp [Function.comp, this]

/-! ## Well-formed stores -/

theorem WF_New (size : Int) : WF (New size : Cache K V) := by
  simp [WF, New]

theorem WF.list_none {c : Cache K V} (hc : WF c) (hh : c.hash = none) : c.list = none := by
  obtain ⟨sz, hash, list, heap⟩ := c
  cases hash <;> cases list <;> simp_all [WF]

theorem WF.linked {c : Cache K V} (hc : WF c) {h : List (K × Nat)} (hh : c.hash = some h) :
    ∃ l, c.list = some l ∧ Linked h l c.heap := by
  obtain ⟨sz, hash, list, heap⟩ := c
  cases hash <;> cases list <;> simp_all [WF]

theorem WF.keys_nodup {c : Cache K V} (hc : WF c) : (keys c).Nodup := by
  obtain ⟨sz, hash, list, heap⟩ := c
  cases hash with
  | none =>
    have := hc.list_none rfl
    simp only at this
    subst this
    simp [keys, entries]
  | some h =>
    obtain ⟨l, hl, hlk⟩ := hc.linked rfl
    simp only at hl
    subst hl
    simp only [keys, entries, List.map_map]
    have hkeys : ∀ x ∈ l, ∀ y ∈ l, x.Value.key = y.Value.key → x.addr = y.addr := by
      intro x hx y hy e
      have hg := hlk.get_of_mem hy
      exact ((hlk.addr_iff_key hg hx).2 e)
    have hinj : ∀ x ∈ l, ∀ y ∈ l, x.Value.key = y.Value.key → x = y :=
      fun x hx y hy e => hlk.node_eq hx hy (hkeys x hx y hy e)
    have hnd : l.Nodup := List.Nodup.of_map _ hlk.addr_nodup
    exact List.Nodup.map_on hinj hnd

theorem Len_eq_length (c : Cache K V) : Len c = (entries c).length := by
  obtain ⟨sz, hash, list, heap⟩ := c
  cases list <;> simp [Len, entries, list.Len]

theorem mem_keys_iff {c : Cache K V} (hc : WF c) {h : List (K × Nat)} (hh : c.hash = some h)
    (k : K) : k ∈ keys c ↔ ∃ a, mapGet h k = some a := by
  obtain ⟨l, hl, hlk⟩ := hc.linked hh
  have hkeys : keys c = l.map (fun x => x.Value.key) := by
    simp [keys, entries, hl, List.map_map, Function.comp]
  rw [hkeys]
  constructor
  · intro hk
    obtain ⟨x, hx, rfl⟩ := List.mem_map.1 hk
    exact ⟨_, hlk.get_of_mem hx⟩
  · rintro ⟨a, ha⟩
    by_contra hk
    rw [(hlk.get_none_iff k).2 hk] at ha
    exact Option.noConfusion ha

theorem keys_of_hash_none {c : Cache K V} (hc : WF c) (hh : c.hash = none) : entries c = [] := by
  simp [entries, hc.list_none hh]

/-! ## The four operations on well-formed stores -/

theorem Evict_spec (c : Cache K V) (hc : WF c) :
    ∃ c', Evict c = some c' ∧ WF c' ∧ c'.Size = c.Size ∧
      entries c' = (entries c).dropLast ∧ (entries c = [] → c' = c) := by
  obtain ⟨sz, hash, list, heap⟩ := c
  cases hash with
  | none =>
    have hl := hc.list_none rfl
    simp only at hl
    subst hl
    exact ⟨_, rfl, hc, rfl, by simp [entries], fun _ => rfl⟩
  | some h =>
    obtain ⟨l, hl, hlk⟩ := hc.linked rfl
    simp only at hl hlk
    subst hl
    cases hb : list.Back l with
    | none =>
      have hnil : l = [] := by simpa [list.Back] using hb
      subst hnil
      exact ⟨_, by simp [Evict, list.Back], hc, rfl, by simp [entries], fun _ => rfl⟩
    | some x =>
      have hx : x ∈ l := List.mem_of_getLast?_eq_some hb
      refine ⟨{ Size := sz, hash := some (mapDelete h x.Value.key),
                list := some (list.Remove l x.addr), heap := heap },
        by simp only [Evict, hb], ?_, rfl, ?_, ?_⟩
      · simpa [WF] using hlk.remove hx
      · simp only [entries]
        rw [list.Remove_Back hlk.addr_nodup hb, List.map_dropLast]
      · intro he
        have : l = [] := by simpa [entries] using he
        subst this
        cases hx

theorem Get_absent (c : Cache K V) (hc : WF c) (k : K) (hk : k ∉ keys c) :
    Get c k = some ((none, false), c) := by
  cases hh : c.hash with
  | none => simp [Get, hh]
  | some h =>
    have hg : mapGet h k = none := by
      cases hg : mapGet h k with
      | none => rfl
      | some a => exact absurd ((mem_keys_iff hc hh k).2 ⟨a, hg⟩) hk
    simp [Get, hh, hg]

theorem Remove_absent (c : Cache K V) (hc : WF c) (k : K) (hk : k ∉ keys c) :
    Remove c k = some (false, c) := by
  cases hh : c.hash with
  | none => simp [Remove, hh]
  | some h =>
    have hg : mapGet h k = none := by
      cases hg : mapGet h k with
      | none => rfl
      | some a => exact absurd ((mem_keys_iff hc hh k).2 ⟨a, hg⟩) hk
    simp [Remove, hh, hg]

theorem Get_present (c : Cache K V) (hc : WF c) (k : K) (v : V) (hk : (k, v) ∈ entries c) :
    ∃ c', Get c k = some ((some v, true), c') ∧ WF c' ∧ c'.Size = c.Size ∧
      entries c' = (k, v) :: (entries c).filter (fun p => p.1 ≠ k) ∧ Len c' = Len c ∧
      (entries c').Perm (entries c) := by
  obtain ⟨sz, hash, list, heap⟩ := c
  cases hash with
  | none => rw [keys_of_hash_none hc rfl] at hk; cases hk
  | some h =>
    obtain ⟨l, hl, hlk⟩ := hc.linked rfl
    simp only at hl hlk
    subst hl
    simp only [entries] at hk
    obtain ⟨y, hy, hykv⟩ := List.mem_map.1 hk
    have hyk : y.Value.key = k := congrArg Prod.fst hykv
    have hyv : y.Value.value = v := congrArg Prod.snd hykv
    have hg : mapGet h k = some y.addr := hyk ▸ hlk.get_of_mem hy
    obtain ⟨x, hnode, hx, hxk, hxa⟩ := hlk.node_of_get hg
    have hxy : x = y := hlk.node_eq hx hy hxa
    subst hxy
    refine ⟨{ Size := sz, hash := some h, list := some (list.MoveToFront l x.addr),
              heap := heap }, by simp only [Get, hg, hnode, hyv], ?_, rfl, ?_, ?_, ?_⟩
    · simpa [WF] using hlk.moveToFront hnode
    · simp only [entries]
      rw [list.MoveToFront_eq hlk.addr_nodup hnode, List.map_cons, hlk.map_Remove hg, hyk, hyv]
    · simp only [Len, list.Len]
      rw [list.MoveToFront_eq hlk.addr_nodup hnode]
      exact (list.perm_cons_Remove hlk.addr_nodup hx).length_eq
    · simp only [entries]
      rw [list.MoveToFront_eq hlk.addr_nodup hnode]
      exact (list.perm_cons_Remove hlk.addr_nodup hx).map _

theorem Remove_present (c : Cache K V) (hc : WF c) (k : K) (hk : k ∈ keys c) :
    ∃ c', Remove c k = some (true, c') ∧ WF c' ∧ c'.Size = c.Size ∧
      entries c' = (entries c).filter (fun p => p.1 ≠ k) ∧ Len c' + 1 = Len c := by
  obtain ⟨sz, hash, list, heap⟩ := c
  cases hash with
  | none => simp [keys, keys_of_hash_none hc rfl] at hk
  | some h =>
    obtain ⟨a, hg⟩ := (mem_keys_iff hc rfl k).1 hk
    obtain ⟨l, hl, hlk⟩ := hc.linked rfl
    simp only at hl hlk hg
    subst hl
    obtain ⟨x, hnode, hx, hxk, hxa⟩ := hlk.node_of_get hg
    subst hxa
    refine ⟨{ Size := sz, hash := some (mapDelete h x.Value.key),
              list := some (list.Remove l x.addr), heap := heap },
      by simp only [Remove, hg, hnode], ?_, rfl, ?_, ?_⟩
    · simpa [WF] using hlk.remove hx
    · simp only [entries]
      rw [hlk.map_Remove hg]
    · simp only [Len, list.Len]
      exact (list.perm_cons_Remove hlk.addr_nodup hx).length_eq

theorem Set_present (c : Cache K V) (hc : WF c) (k : K) (v : V) (hk : k ∈ keys c) :
    ∃ c', Set c k v = some c' ∧ WF c' ∧ c'.Size = c.Size ∧
      entries c' = (k, v) :: (entries c).filter (fun p => p.1 ≠ k) ∧ Len c' = Len c := by
  obtain ⟨sz, hash, list, heap⟩ := c
  cases hash with
  | none => simp [keys, keys_of_hash_none hc rfl] at hk
  | some h =>
    obtain ⟨a, hg⟩ := (mem_keys_iff hc rfl k).1 hk
    obtain ⟨l, hl, hlk⟩ := hc.linked rfl
    simp only at hl hlk hg
    subst hl
    obtain ⟨x, hnode, hx, hxk, hxa⟩ := hlk.node_of_get hg
    subst hxa
    have hmv := list.MoveToFront_eq hlk.addr_nodup hnode
    have hnot : x.addr ∉ (list.Remove l x.addr).map Element.addr := by
      intro hm
      obtain ⟨y, hy, e⟩ := List.mem_map.1 hm
      have := (List.mem_filter.1 hy).2
      simp [e] at this
    refine ⟨{ Size := sz, hash := some h,
              list := some (list.setValue (list.MoveToFront l x.addr) x.addr v),
              heap := heap }, by simp only [Set, hg, hnode], ?_, rfl, ?_, ?_⟩
    · simpa [WF] using (hlk.moveToFront hnode).setValue x.addr v
    · simp only [entries]
      rw [hmv, list.map_setValue_cons x _ v hnot, hlk.map_Remove hg, hxk]
    · simp only [Len, list.Len, list.setValue, List.length_map]
      rw [hmv]
      exact (list.perm_cons_Remove hlk.addr_nodup hx).length_eq

theorem Set_absent_push (c : Cache K V) (hc : WF c) (k : K) (v : V) (hk : k ∉ keys c) :
    ∃ c₁, WF c₁ ∧ c₁.Size = c.Size ∧ entries c₁ = (k, v) :: entries c ∧
      Set c k v = if c.Size ≠ 0 ∧ ((Len c : Int) + 1) > c.Size then Evict c₁ else some c₁ := by
  obtain ⟨sz, hash, list, heap⟩ := c
  cases hash with
  | none =>
    have hl := hc.list_none rfl
    simp only at hl
    subst hl
    refine ⟨{ Size := sz, hash := some (mapSet [] k heap),
              list := some (list.PushFront [] heap { key := k, value := v }),
              heap := heap + 1 }, ?_, rfl, ?_, ?_⟩
    · simpa [WF] using (Linked.nil heap).pushFront (K := K) (V := V) (k := k) rfl v
    · simp [entries, list.PushFront]
    · simp [Set, mapGet, Len, list.Len, list.PushFront]
  | some h =>
    obtain ⟨l, hl, hlk⟩ := hc.linked rfl
    simp only at hl hlk
    subst hl
    have hg : mapGet h k = none := by
      cases hg : mapGet h k with
      | none => rfl
      | some a => exact absurd ((mem_keys_iff hc rfl k).2 ⟨a, hg⟩) hk
    refine ⟨{ Size := sz, hash := some (mapSet h k heap),
              list := some (list.PushFront l heap { key := k, value := v }),
              heap := heap + 1 }, ?_, rfl, ?_, ?_⟩
    · simpa [WF] using hlk.pushFront hg v
    · simp [entries, list.PushFront]
    · simp [Set, hg, Len, list.Len, list.PushFront]

theorem Set_absent (c : Cache K V) (hc : WF c) (k : K) (v : V) (hk : k ∉ keys c) :
    ∃ c', Set c k v = some c' ∧ WF c' ∧ c'.Size = c.Size ∧
      entries c' = if c.Size ≠ 0 ∧ ((Len c : Int) + 1) > c.Size
        then ((k, v) :: entries c).dropLast else (k, v) :: entries c := by
  obtain ⟨c₁, hwf, hsz, hent, hset⟩ := Set_absent_push c hc k v hk
  by_cases hcond : c.Size ≠ 0 ∧ ((Len c : Int) + 1) > c.Size
  · obtain ⟨c', hev, hwf', hsz', hent', _⟩ := Evict_spec c₁ hwf
    refine ⟨c', ?_, hwf', hsz'.trans hsz, ?_⟩
    · rw [hset, if_pos hcond, hev]
    · rw [if_pos hcond, hent', hent]
  · refine ⟨c₁, ?_, hwf, hsz, ?_⟩
    · rw [hset, if_neg hcond]
    · rw [if_neg hcond, hent]

theorem exists_value_of_mem_keys {c : Cache K V} {k : K} (hk : k ∈ keys c) :
    ∃ v, (k, v) ∈ entries c := by
  obtain ⟨p, hp, rfl⟩ := List.mem_map.1 hk
  exact ⟨p.2, hp⟩

/-- Every call succeeds on a well-formed store, keeps it well-formed and keeps its `Size`;
the length grows by at most one, and only when the capacity test of `Set` allows it. -/
theorem step_spec (c : Cache K V) (hc : WF c) (call : Call K V) :
    ∃ c', step c call = some c' ∧ WF c' ∧ c'.Size = c.Size ∧
      (Len c' ≤ Len c ∨
        (Len c' = Len c + 1 ∧ ¬ (c.Size ≠ 0 ∧ ((Len c : Int) + 1) > c.Size))) := by
  cases call with
  | Set k v =>
    by_cases hk : k ∈ keys c
    · obtain ⟨c', h1, h2, h3, _, h5⟩ := Set_present c hc k v hk
      exact ⟨c', h1, h2, h3, Or.inl (le_of_eq h5)⟩
    · obtain ⟨c', h1, h2, h3, h4⟩ := Set_absent c hc k v hk
      refine ⟨c', h1, h2, h3, ?_⟩
      by_cases hcond : c.Size ≠ 0 ∧ ((Len c : Int) + 1) > c.Size
      · left
        rw [if_pos hcond] at h4
        rw [Len_eq_length, Len_eq_length, h4]
        simp
      · right
        rw [if_neg hcond] at h4
        refine ⟨?_, hcond⟩
        rw [Len_eq_length, Len_eq_length, h4]
        simp
  | Get k =>
    by_cases hk : k ∈ keys c
    · obtain ⟨v, hv⟩ := exists_value_of_mem_keys hk
      obtain ⟨c', h1, h2, h3, _, h5, _⟩ := Get_present c hc k v hv
      exact ⟨c', by simp [step, h1], h2, h3, Or.inl (le_of_eq h5)⟩
    · exact ⟨c, by simp [step, Get_absent c hc k hk], hc, rfl, Or.inl (le_refl _)⟩
  | Remove k =>
    by_cases hk : k ∈ keys c
    · obtain ⟨c', h1, h2, h3, _, h5⟩ := Remove_present c hc k hk
      exact ⟨c', by simp [step, h1], h2, h3, Or.inl (by omega)⟩
    · exact ⟨c, by simp [step, Remove_absent c hc k hk], hc, rfl, Or.inl (le_refl _)⟩
  | Evict =>
    obtain ⟨c', h1, h2, h3, h4, _⟩ := Evict_spec c hc
    refine ⟨c', h1, h2, h3, Or.inl ?_⟩
    rw [Len_eq_length, Len_eq_length, h4]
    simp

theorem run_spec (calls : List (Call K V)) (c : Cache K V) (hc : WF c) (size : Int)
    (hsize : 0 < size) (hsz : c.Size = size) (hlen : (Len c : Int) ≤ size) :
    ∃ c', run c calls = some c' ∧ WF c' ∧ c'.Size = size ∧ (Len c' : Int) ≤ size := by
  induction calls generalizing c with
  | nil => exact ⟨c, rfl, hc, hsz, hlen⟩
  | cons call calls ih =>
    obtain ⟨c₁, h1, h2, h3, h4⟩ := step_spec c hc call
    have hlen₁ : (Len c₁ : Int) ≤ size := by
      rcases h4 with h4 | ⟨h4, h5⟩
      · have : (Len c₁ : Int) ≤ (Len c : Int) := by exact_mod_cast h4
        omega
      · rw [hsz] at h5
        have h6 : (Len c₁ : Int) = (Len c : Int) + 1 := by exact_mod_cast h4
        by_contra hcon
        exact h5 ⟨by omega, by omega⟩
    obtain ⟨c', h5, h6⟩ := ih c₁ h2 (h3.trans hsz) hlen₁
    exact ⟨c', by simp [run, h1, h5], h6⟩

theorem run_WF (calls : List (Call K V)) (c c' : Cache K V) (hc : WF c)
    (hrun : run c calls = some c') : WF c' := by
  induction calls generalizing c with
  | nil => simp [run] at hrun; exact hrun ▸ hc
  | cons call calls ih =>
    obtain ⟨c₁, h1, h2, _⟩ := step_spec c hc call
    simp only [run, h1] at hrun
    exact ih c₁ h2 hrun

theorem Set_absent_nonneg (c : Cache K V) (hc : WF c) (hsize : 0 ≤ c.Size) (k : K) (v : V)
    (hk : k ∉ keys c) :
    ∃ c', Set c k v = some c' ∧ WF c' ∧
      entries c' = if c.Size ≠ 0 ∧ ((Len c : Int) + 1) > c.Size
        then (k, v) :: (entries c).dropLast else (k, v) :: entries c := by
  obtain ⟨c', h1, h2, _, h4⟩ := Set_absent c hc k v hk
  refine ⟨c', h1, h2, ?_⟩
  rw [h4]
  by_cases hcond : c.Size ≠ 0 ∧ ((Len c : Int) + 1) > c.Size
  · rw [if_pos hcond, if_pos hcond]
    have hne : entries c ≠ [] := by
      intro he
      have h0 : Len c = 0 := by rw [Len_eq_length, he]; rfl
      rw [h0] at hcond
      obtain ⟨h5, h6⟩ := hcond
      have : c.Size = 0 := by
        have h7 : c.Size < 1 := by simpa using h6
        omega
      exact h5 this
    rw [List.dropLast_cons_of_ne_nil hne]
  · rw [if_neg hcond, if_neg hcond]

theorem sample_WF : WF sample :=
  run_WF [Call.Set "key-a" "a", Call.Set "key-b" "b"] (New 2) sample (WF_New 2) (by decide)

/-! ## The LRU store: claims -/

/-- C1: for every capacity `size > 0` and every finite sequence of `Set`, `Get`, `Remove`
and `Evict` calls applied to `New(size)`, every call of the sequence returns and
`Len() ≤ size` holds after each of them, that is after every prefix `calls.take n`. -/
theorem capacity_invariant (size : Int) (hsize : 0 < size) (calls : List (Call K V))
    (n : Nat) : ∃ c, run (New size) (calls.take n) = some c ∧ (Len c : Int) ≤ size := by
  obtain ⟨c, h1, _, _, h4⟩ :=
    run_spec (calls.take n) (New size : Cache K V) (WF_New size) size hsize rfl
      (by simpa [New, Len] using le_of_lt hsize)
  exact ⟨c, h1, h4⟩

theorem capacity_invariant_witness :
    (0 : Int) < 2 ∧ ∃ c, run (New 2 : Cache String String)
      ([Call.Set "key-a" "a", Call.Set "key-b" "b", Call.Get "key-a", Call.Set "key-c" "c",
        Call.Remove "key-a", Call.Evict].take 4) = some c ∧ (Len c : Int) ≤ 2 :=
  ⟨by decide, capacity_invariant 2 (by decide) _ 4⟩

/-- C3: on a well-formed store, `Set(k, v)` for a key `k` already present returns, puts
`(k, v)` at the front of the recency order, and leaves behind it every other entry with its
old value in the old relative order; nothing is evicted and `Len()` is unchanged. -/
theorem Set_present_key (c : Cache K V) (hc : WF c) (k : K) (v : V) (hk : k ∈ keys c) :
    ∃ c', Set c k v = some c' ∧
      entries c' = (k, v) :: (entries c).filter (fun p => p.1 ≠ k) ∧ Len c' = Len c := by
  obtain ⟨c', h1, _, _, h4, h5⟩ := Set_present c hc k v hk
  exact ⟨c', h1, h4, h5⟩

theorem Set_present_key_witness :
    (WF sample ∧ "key-a" ∈ keys sample) ∧
      ∃ c', Set sample "key-a" "z" = some c' ∧
        entries c' = ("key-a", "z") :: (entries sample).filter (fun p => p.1 ≠ "key-a") ∧
        Len c' = Len sample :=
  ⟨⟨sample_WF, by decide⟩, Set_present_key sample sample_WF "key-a" "z" (by decide)⟩

/-- C4: on a well-formed store, if `k` is present with value `v` then `Get(k)` returns
`(v, true)` and moves `(k, v)` to the front of the recency order, the other entries keeping
their values and relative order and the entries being the same as before up to order; if `k`
is absent then `Get(k)` returns `(nil, false)` and the store is unchanged. -/
theorem Get_present_or_absent (c : Cache K V) (hc : WF c) (k : K) :
    (∀ v, (k, v) ∈ entries c →
      ∃ c', Get c k = some ((some v, true), c') ∧
        entries c' = (k, v) :: (entries c).filter (fun p => p.1 ≠ k) ∧
        (entries c').Perm (entries c)) ∧
    (k ∉ keys c → Get c k = some ((none, false), c)) := by
  refine ⟨fun v hv => ?_, Get_absent c hc k⟩
  obtain ⟨c', h1, _, _, h4, _, h6⟩ := Get_present c hc k v hv
  exact ⟨c', h1, h4, h6⟩

theorem Get_present_or_absent_witness :
    WF sample ∧ ("key-a", "a") ∈ entries sample ∧ "key-c" ∉ keys sample ∧
      (∃ c', Get sample "key-a" = some ((some "a", true), c') ∧
        entries c' = ("key-a", "a") :: (entries sample).filter (fun p => p.1 ≠ "key-a") ∧
        (entries c').Perm (entries sample)) ∧
      Get sample "key-c" = some ((none, false), sample) :=
  ⟨sample_WF, by decide, by decide,
    (Get_present_or_absent sample sample_WF "key-a").1 "a" (by decide),
    (Get_present_or_absent sample sample_WF "key-c").2 (by decide)⟩

end lru

namespace proxy

variable {D E : Type} [DecidableEq D]

/-! ## The shard worker -/

theorem lookup_miss (comparable : D → Bool) (expiration : Int)
    (cache : lru.Cache (Key D) (entry D)) (hc : lru.WF cache) (now : Int) (q : query D E)
    (hk : Key.str q.key ∉ lru.keys cache) :
    lookup comparable expiration cache now q
      = some (cache, { q.result with Metrics := { q.result.Metrics with Miss := true } }, []) := by
  simp [lookup, lru.Get_absent cache hc _ hk]

theorem lookup_hit (comparable : D → Bool) (expiration : Int)
    (cache : lru.Cache (Key D) (entry D)) (hc : lru.WF cache) (now : Int) (q : query D E)
    (item : entry D) (hk : (Key.str q.key, item) ∈ lru.entries cache)
    (hfresh : expiration = 0 ∨ ¬ now > item.expiry) :
    ∃ cache', lru.WF cache' ∧ cache'.Size = cache.Size ∧
      lru.entries cache' = (Key.str q.key, item) ::
        (lru.entries cache).filter (fun p => p.1 ≠ Key.str q.key) ∧
      lookup comparable expiration cache now q
        = some (cache', { Metrics := { q.result.Metrics with Hit := true }, Request := item.data },
            [(none, { Metrics := { q.result.Metrics with Hit := true }, Request := item.data })]) := by
  obtain ⟨cache', h1, h2, h3, h4, _⟩ := lru.Get_present cache hc _ item hk
  refine ⟨cache', h2, h3, h4, ?_⟩
  have hcond : ¬ (expiration ≠ 0 ∧ now > item.expiry) := by
    rintro ⟨h5, h6⟩
    rcases hfresh with h | h
    · exact h5 h
    · exact h h6
  simp only [lookup, h1, Bool.not_true, Bool.false_eq_true, if_false, if_neg hcond]

theorem Set_total (cache : lru.Cache (Key D) (entry D)) (hc : lru.WF cache) (k : Key D)
    (v : entry D) : ∃ cache', lru.Set cache k v = some cache' ∧ lru.WF cache' := by
  by_cases hk : k ∈ lru.keys cache
  · obtain ⟨c', h1, h2, _⟩ := lru.Set_present cache hc k v hk
    exact ⟨c', h1, h2⟩
  · obtain ⟨c', h1, h2, _⟩ := lru.Set_absent cache hc k v hk
    exact ⟨c', h1, h2⟩

theorem serve_miss_success (comparable : D → Bool) (expiration : Int)
    (cache : lru.Cache (Key D) (entry D)) (hc : lru.WF cache) (now now2 : Int) (q : query D E)
    (hk : Key.str q.key ∉ lru.keys cache) (d : Value D) (hp : q.producer q.key = (d, none)) :
    ∃ cache', lru.Set cache (Key.str q.key) { data := d, expiry := now2 + expiration }
        = some cache' ∧
      serve comparable expiration cache now now2 q
        = some { cache := cache'
                 result := { Metrics := { q.result.Metrics with Miss := true }, Request := d }
                 replies := [(none, { Metrics := { q.result.Metrics with Miss := true },
                                      Request := d })]
                 requests := [q.key] } := by
  obtain ⟨cache', h1, _⟩ := Set_total cache hc (Key.str q.key)
    { data := d, expiry := now2 + expiration }
  refine ⟨cache', h1, ?_⟩
  simp only [serve, lookup_miss comparable expiration cache hc now q hk, hp, h1,
    List.nil_append]

theorem serve_miss_failure (comparable : D → Bool) (expiration : Int)
    (cache : lru.Cache (Key D) (entry D)) (hc : lru.WF cache) (now now2 : Int) (q : query D E)
    (hk : Key.str q.key ∉ lru.keys cache) (d : Value D) (e : E)
    (hp : q.producer q.key = (d, some e)) :
    serve comparable expiration cache now now2 q
      = some { cache := cache
               result := { q.result with Metrics := { q.result.Metrics with Miss := true } }
               replies := [(some e,
                 { q.result with Metrics := { q.result.Metrics with Miss := true } })]
               requests := [q.key] } := by
  simp only [serve, lookup_miss comparable expiration cache hc now q hk, hp, List.nil_append]

theorem serve_hit (comparable : D → Bool) (expiration : Int)
    (cache : lru.Cache (Key D) (entry D)) (hc : lru.WF cache) (now now2 : Int) (q : query D E)
    (item : entry D) (hk : (Key.str q.key, item) ∈ lru.entries cache)
    (hfresh : expiration = 0 ∨ ¬ now > item.expiry) :
    ∃ o, serve comparable expiration cache now now2 q = some o ∧
      o.requests = [q.key] ∧
      receive o = some ({ Metrics := { q.result.Metrics with Hit := true },
                          Request := item.data }, none) := by
  obtain ⟨cache', h1, _, _, h4⟩ := lookup_hit comparable expiration cache hc now q item hk hfresh
  cases hp : q.producer q.key with
  | mk data err =>
    cases err with
    | none =>
      obtain ⟨cache'', h5, _⟩ := Set_total cache' h1 (Key.str q.key)
        { data := data, expiry := now2 + expiration }
      have hs : serve comparable expiration cache now now2 q
          = some { cache := cache''
                   result := { Metrics := { q.result.Metrics with Hit := true }, Request := data }
                   replies := [(none, { Metrics := { q.result.Metrics with Hit := true },
                                        Request := item.data }),
                               (none, { Metrics := { q.result.Metrics with Hit := true },
                                        Request := data })]
                   requests := [q.key] } := by
        simp only [serve, h4, hp, h5, List.singleton_append]
      exact ⟨_, hs, rfl, rfl⟩
    | some e =>
      have hs : serve comparable expiration cache now now2 q
          = some { cache := cache'
                   result := { Metrics := { q.result.Metrics with Hit := true },
                               Request := item.data }
                   replies := [(none, { Metrics := { q.result.Metrics with Hit := true },
                                        Request := item.data }),
                               (some e, { Metrics := { q.result.Metrics with Hit := true },
                                          Request := item.data })]
                   requests := [q.key] } := by
        simp only [serve, h4, hp, List.singleton_append]
      exact ⟨_, hs, rfl, rfl⟩

theorem cached_WF : lru.WF cached :=
  lru.run_WF [lru.Call.Set (Key.str "k") ⟨Value.data "old", 100⟩] (lru.New 4) cached
    (lru.WF_New 4) (by decide)

/-! ## The shard worker: claims -/

/-- C7: at the failing input, a request for the key `"k"` cached in `cached` with expiry 100,
served at instant 50 with expiration 10 and a producer that succeeds.  The worker marks Hit
and sends the cached `"old"` as first reply, but then goes on: `producer.Request` is called
once, the stored entry is overwritten with `"new"` and expiry `60 + 10`, and a second value
is sent on the reply channel. -/
theorem serve_hit_calls_producer :
    serve (fun _ => true) 10 cached 50 60 ⟨request "0", "k", succeed⟩
      = some
        { cache :=
            { Size := 4
              hash := some [(Key.str "k", 0)]
              list := some [⟨0, ⟨Key.str "k", ⟨Value.data "new", 70⟩⟩⟩]
              heap := 1 }
          result :=
            { Metrics := { Request := false, Hit := true, Expired := false, Miss := false,
                           Done := false, Shard := "0", Latency := 0 }
              Request := Value.data "new" }
          replies :=
            [(none, { Metrics := { Request := false, Hit := true, Expired := false,
                                   Miss := false, Done := false, Shard := "0", Latency := 0 }
                      Request := Value.data "old" }),
             (none, { Metrics := { Request := false, Hit := true, Expired := false,
                                   Miss := false, Done := false, Shard := "0", Latency := 0 }
                      Request := Value.data "new" })]
          requests := ["k"] } := by
  decide

/-- C9: at the failing input, a request for the key `"k"` cached in `cached` with expiry 100,
served at instant 150 with expiration 10 and a producer that fails.  The request is marked
Expired and the error is sent back, but `Remove` is called with the cached entry instead of
the key, so nothing is removed: the store is `cached` as before, and the next request for
`"k"` (served at instant 200) is marked Expired again, not Miss. -/
theorem serve_expired_keeps_entry :
    serve (fun _ => true) 10 cached 150 160 ⟨request "0", "k", fail⟩
      = some
        { cache := cached
          result :=
            { Metrics := { Request := false, Hit := false, Expired := true, Miss := false,
                           Done := false, Shard := "0", Latency := 0 }
              Request := Value.bool true }
          replies :=
            [(some "boom",
              { Metrics := { Request := false, Hit := false, Expired := true, Miss := false,
                             Done := false, Shard := "0", Latency := 0 }
                Request := Value.bool true })]
          requests := ["k"] } ∧
    (serve (fun _ => true) 10 cached 200 210 ⟨request "0", "k", fail⟩).map
        (fun o => (o.result.Metrics.Expired, o.result.Metrics.Miss, lru.keys o.cache))
      = some (true, false, [Key.str "k"]) := by
  decide

theorem serve_miss (comparable : D → Bool) (expiration : Int)
    (cache : lru.Cache (Key D) (entry D)) (hc : lru.WF cache) (now now2 : Int) (q : query D E)
    (hk : Key.str q.key ∉ lru.keys cache) :
    ∃ o, serve comparable expiration cache now now2 q = some o ∧
      o.result.Metrics = { q.result.Metrics with Miss := true } ∧ o.requests = [q.key] := by
  cases hp : q.producer q.key with
  | mk d err =>
    cases err with
    | none =>
      obtain ⟨cache', _, h2⟩ :=
        serve_miss_success comparable expiration cache hc now now2 q hk d hp
      exact ⟨_, h2, rfl, rfl⟩
    | some e =>
      exact ⟨_, serve_miss_failure comparable expiration cache hc now now2 q hk d e hp,
        rfl, rfl⟩

/-- C10: for a key absent from a well-formed shard store and a producer that returns the
error `e` for it, the worker sends the single reply `e`, which is the error that `Get`
receives and returns; the store after the request is the store before it; and a subsequent
request for the same key (any clock, any producer) is marked Miss again. -/
theorem serve_miss_error (comparable : D → Bool) (expiration : Int)
    (cache : lru.Cache (Key D) (entry D)) (hc : lru.WF cache) (now now2 : Int) (q : query D E)
    (hk : Key.str q.key ∉ lru.keys cache) (d : Value D) (e : E)
    (hp : q.producer q.key = (d, some e)) :
    ∃ o, serve comparable expiration cache now now2 q = some o ∧
      o.replies = [(some e, o.result)] ∧
      receive o
        = some ({ o.result with Metrics := { o.result.Metrics with Done := true } }, some e) ∧
      o.requests = [q.key] ∧
      o.cache = cache ∧
      ∀ (now' now2' : Int) (q' : query D E), q'.key = q.key →
        ∃ o', serve comparable expiration o.cache now' now2' q' = some o' ∧
          o'.result.Metrics = { q'.result.Metrics with Miss := true } := by
  refine ⟨_, serve_miss_failure comparable expiration cache hc now now2 q hk d e hp,
    rfl, rfl, rfl, rfl, fun now' now2' q' hq => ?_⟩
  have hk' : Key.str q'.key ∉ lru.keys cache := hq ▸ hk
  obtain ⟨o', h1, h2, _⟩ := serve_miss comparable expiration cache hc now' now2' q' hk'
  exact ⟨o', h1, h2⟩

theorem serve_miss_error_witness :
    (lru.WF cached ∧ Key.str "j" ∉ lru.keys cached ∧ fail "j" = (Value.nil, some "boom")) ∧
    ∃ o, serve (fun _ => true) 10 cached 50 60 ⟨request "0", "j", fail⟩ = some o ∧
      (∃ r, receive o = some (r, some "boom")) ∧ o.cache = cached ∧
      ∃ o', serve (fun _ => true) 10 o.cache 65 66 ⟨request "0", "j", succeed⟩ = some o' ∧
        o'.result.Metrics = { (request "0" : Result String).Metrics with Miss := true } :=
  ⟨⟨cached_WF, by decide, rfl⟩, by
    obtain ⟨o, h1, _, h3, _, h5, h6⟩ :=
      serve_miss_error (fun _ => true) 10 cached cached_WF 50 60
        ⟨request "0", "j", fail⟩ (by decide) Value.nil "boom" rfl
    obtain ⟨o', h7, h8⟩ := h6 65 66 ⟨request "0", "j", succeed⟩ rfl
    exact ⟨o, h1, ⟨_, h3⟩, h5, o', h7, h8⟩⟩

end proxy

namespace lru

variable {K V : Type} [DecidableEq K]

/-! ## The LRU store: fresh stores, the index, negative capacities -/

theorem run_total (calls : List (Call K V)) (c : Cache K V) (hc : WF c) :
    ∃ c', run c calls = some c' ∧ WF c' ∧ c'.Size = c.Size := by
  induction calls generalizing c with
  | nil => exact ⟨c, rfl, hc, rfl⟩
  | cons call calls ih =>
    obtain ⟨c₁, h1, h2, h3, _⟩ := step_spec c hc call
    obtain ⟨c', h4, h5, h6⟩ := ih c₁ h2
    exact ⟨c', by simp [run, h1, h4], h5, h6.trans h3⟩

theorem WF.mem_indexed_iff {c : Cache K V} (hc : WF c) (k : K) :
    k ∈ indexed c ↔ k ∈ keys c := by
  cases hh : c.hash with
  | none => simp [indexed, hh, keys, keys_of_hash_none hc hh]
  | some h =>
    rw [mem_keys_iff hc hh k]
    simp only [indexed, hh]
    constructor
    · intro hk
      cases hg : mapGet h k with
      | none => exact absurd hk ((mapGet_eq_none_iff h k).1 hg)
      | some a => exact ⟨a, rfl⟩
    · rintro ⟨a, ha⟩
      by_contra hk
      rw [(mapGet_eq_none_iff h k).2 hk] at ha
      exact Option.noConfusion ha

theorem WF.indexed_nodup {c : Cache K V} (hc : WF c) : (indexed c).Nodup := by
  cases hh : c.hash with
  | none => simp [indexed, hh]
  | some h =>
    obtain ⟨l, _, hlk⟩ := hc.linked hh
    simpa [indexed, hh] using hlk.keys_nodup

theorem WF.Len_eq_indexed {c : Cache K V} (hc : WF c) : Len c = (indexed c).length := by
  rw [Len_eq_length, ← List.length_map (entries c) Prod.fst]
  exact ((List.perm_ext_iff_of_nodup hc.keys_nodup hc.indexed_nodup).2
    (fun k => (hc.mem_indexed_iff k).symm)).length_eq

theorem run_noSet (size : Int) (calls : List (Call K V))
    (hcalls : ∀ call ∈ calls, ∀ k v, call ≠ Call.Set k v) :
    run (New size) calls = some (New size) := by
  induction calls with
  | nil => rfl
  | cons call calls ih =>
    have hrest : ∀ call ∈ calls, ∀ k v, call ≠ Call.Set k v :=
      fun c hcm => hcalls c (List.mem_cons_of_mem _ hcm)
    have hstep : step (New size : Cache K V) call = some (New size) := by
      cases call with
      | Set k v => exact absurd rfl (hcalls _ (List.mem_cons_self _ _) k v)
      | Get k => rfl
      | Remove k => rfl
      | Evict => rfl
    simp only [run, hstep]
    exact ih hrest

/-- C17: for every capacity and key, on the store `New(size)` the call `Len()` gives 0,
`Get(k)` gives `(nil, false)`, `Remove(k)` gives `false` and `Evict()` does nothing; each of
them returns (no run-time failure) and leaves the store as `New` made it.  Hence the same
holds after any sequence of calls among which there is no `Set`. -/
theorem fresh_store (size : Int) (k : K) :
    Len (New size : Cache K V) = 0 ∧
    Get (New size : Cache K V) k = some ((none, false), New size) ∧
    Remove (New size : Cache K V) k = some (false, New size) ∧
    Evict (New size : Cache K V) = some (New size) ∧
    ∀ calls : List (Call K V), (∀ call ∈ calls, ∀ k v, call ≠ Call.Set k v) →
      run (New size) calls = some (New size) :=
  ⟨rfl, rfl, rfl, rfl, run_noSet size⟩

theorem fresh_store_witness :
    Len (New 4 : Cache String String) = 0 ∧
    Get (New 4 : Cache String String) "a" = some ((none, false), New 4) ∧
    Remove (New 4 : Cache String String) "a" = some (false, New 4) ∧
    Evict (New 4 : Cache String String) = some (New 4) ∧
    (∀ call ∈ [Call.Remove "a", Call.Evict, (Call.Get "a" : Call String String)],
      ∀ k v, call ≠ Call.Set k v) ∧
    run (New 4 : Cache String String) [Call.Remove "a", Call.Evict, Call.Get "a"]
      = some (New 4) :=
  have h := fresh_store (V := String) 4 "a"
  have hno : ∀ call ∈ [Call.Remove "a", Call.Evict, (Call.Get "a" : Call String String)],
      ∀ k v, call ≠ Call.Set k v := by
    intro call hcall k v
    simp only [List.mem_cons, List.mem_singleton, List.not_mem_nil, or_false] at hcall
    rcases hcall with h | h | h <;> rw [h] <;> exact fun e => Call.noConfusion e
  ⟨h.1, h.2.1, h.2.2.1, h.2.2.2.1, hno, h.2.2.2.2 _ hno⟩

/-- C18: every sequence of `Set`, `Get`, `Remove` and `Evict` calls on `New(size)` returns,
and in the state it reaches the keys of the recency list are pairwise distinct, the indexed
keys are exactly the keys of the list, `Len()` is the number of indexed keys, and the index
maps each key to an address whose node is in the list and carries that key. -/
theorem index_matches_list (size : Int) (calls : List (Call K V)) :
    ∃ c, run (New size) calls = some c ∧ (keys c).Nodup ∧
      (∀ k, k ∈ indexed c ↔ k ∈ keys c) ∧ Len c = (indexed c).length ∧
      ∀ h l, c.hash = some h → c.list = some l →
        ∀ k a, mapGet h k = some a → ∃ x, list.node l a = some x ∧ x.Value.key = k := by
  obtain ⟨c, h1, h2, _⟩ := run_total calls (New size : Cache K V) (WF_New size)
  refine ⟨c, h1, h2.keys_nodup, h2.mem_indexed_iff, h2.Len_eq_indexed, ?_⟩
  intro h l hh hl k a hg
  obtain ⟨l', hl', hlk⟩ := h2.linked hh
  rw [hl] at hl'
  obtain rfl := Option.some.inj hl'
  obtain ⟨x, hx, _, hxk, _⟩ := hlk.node_of_get hg
  exact ⟨x, hx, hxk⟩

theorem index_matches_list_witness :
    run (New 2) [Call.Set "key-a" "a", Call.Set "key-b" "b"] = some sample ∧
    (keys sample).Nodup ∧ (∀ k, k ∈ indexed sample ↔ k ∈ keys sample) ∧
    Len sample = (indexed sample).length ∧
    ∃ x, list.node [(⟨1, ⟨"key-b", "b"⟩⟩ : Element String String), ⟨0, ⟨"key-a", "a"⟩⟩] 0
        = some x ∧ x.Value.key = "key-a" := by
  obtain ⟨c, h1, h2, h3, h4, h5⟩ :=
    index_matches_list (K := String) (V := String) 2 [Call.Set "key-a" "a", Call.Set "key-b" "b"]
  have hrun : run (New 2) [Call.Set "key-a" "a", Call.Set "key-b" "b"] = some sample := by
    decide
  have hc : c = sample := Option.some.inj (h1.symm.trans hrun)
  subst hc
  exact ⟨hrun, h2, h3, h4, h5 _ _ rfl rfl "key-a" 0 (by decide)⟩

theorem Set_empty_negative (c : Cache K V) (hc : WF c) (hsize : c.Size < 0)
    (hempty : entries c = []) (k : K) (v : V) :
    ∃ c₁ c', entries c₁ = [(k, v)] ∧ Set c k v = Evict c₁ ∧ Evict c₁ = some c' ∧
      WF c' ∧ c'.Size = c.Size ∧ entries c' = [] := by
  have hk : k ∉ keys c := by simp [keys, hempty]
  obtain ⟨c₁, h1, h2, h3, h4⟩ := Set_absent_push c hc k v hk
  obtain ⟨c', h5, h6, h7, h8, _⟩ := Evict_spec c₁ h1
  have hlen : Len c = 0 := by rw [Len_eq_length, hempty]; rfl
  have hcond : c.Size ≠ 0 ∧ ((Len c : Int) + 1) > c.Size := by
    rw [hlen]
    constructor
    · omega
    · simp only [Nat.cast_zero, zero_add]
      omega
  rw [if_pos hcond] at h4
  rw [hempty] at h3
  refine ⟨c₁, c', h3, h4, h5, h6, h7.trans h2, ?_⟩
  rw [h8, h3]
  rfl

theorem run_Set_negative (sets : List (K × V)) (c : Cache K V) (hc : WF c)
    (hsize : c.Size < 0) (hempty : entries c = []) :
    ∃ c', run c (sets.map (fun p => Call.Set p.1 p.2)) = some c' ∧ WF c' ∧ entries c' = [] := by
  induction sets generalizing c with
  | nil => exact ⟨c, rfl, hc, hempty⟩
  | cons p sets ih =>
    obtain ⟨c₁, c₂, _, h2, h3, h4, h5, h6⟩ := Set_empty_negative c hc hsize hempty p.1 p.2
    obtain ⟨c', h7, h8⟩ := ih c₂ h4 (by rw [h5]; exact hsize) h6
    refine ⟨c', ?_, h8⟩
    simp only [List.map_cons, run, step, h2, h3, h7]

theorem Set_then_Get (c : Cache K V) (hc : WF c) (hsize : 0 ≤ c.Size) (k : K) (v : V) :
    ∃ c' c'', Set c k v = some c' ∧ Get c' k = some ((some v, true), c'') := by
  have key : ∃ c', Set c k v = some c' ∧ WF c' ∧ (k, v) ∈ entries c' := by
    by_cases hk : k ∈ keys c
    · obtain ⟨c', h1, h2, _, h4, _⟩ := Set_present c hc k v hk
      exact ⟨c', h1, h2, by rw [h4]; exact List.mem_cons_self _ _⟩
    · obtain ⟨c', h1, h2, h3⟩ := Set_absent_nonneg c hc hsize k v hk
      refine ⟨c', h1, h2, ?_⟩
      rw [h3]
      split <;> exact List.mem_cons_self _ _
  obtain ⟨c', h1, h2, h3⟩ := key
  obtain ⟨c'', h4, _⟩ := Get_present c' h2 k v h3
  exact ⟨c', c'', h1, h4⟩

/-- C20: for every negative capacity `size` and every sequence of `Set` calls on
`New(size)`, all calls return, `Len()` is 0 afterwards (so after every call) and `Get(k)`
then gives `found = false` for every `k`; a `Set` of a key on such an empty store puts the
key in the list and evicts that very entry.  For every well-formed store of capacity
`Size ≥ 0`, `Get(k)` directly after `Set(k, v)` gives `(v, true)`. -/
theorem negative_capacity_keeps_nothing :
    (∀ (size : Int) (sets : List (K × V)), size < 0 →
      ∃ c, run (New size) (sets.map (fun p => Call.Set p.1 p.2)) = some c ∧ Len c = 0 ∧
        (∀ k, Get c k = some ((none, false), c)) ∧
        ∀ k v, ∃ c₁ c', entries c₁ = [(k, v)] ∧ Set c k v = Evict c₁ ∧
          Evict c₁ = some c' ∧ entries c' = []) ∧
    (∀ (c : Cache K V) (k : K) (v : V), WF c → 0 ≤ c.Size →
      ∃ c' c'', Set c k v = some c' ∧ Get c' k = some ((some v, true), c'')) := by
  refine ⟨fun size sets hsize => ?_, fun c k v hc hsize => Set_then_Get c hc hsize k v⟩
  obtain ⟨c, h1, h2, h3⟩ := run_Set_negative sets (New size : Cache K V) (WF_New size) hsize rfl
  obtain ⟨_, h4, _, h5⟩ := run_total (sets.map (fun p => Call.Set p.1 p.2))
    (New size : Cache K V) (WF_New size)
  have hsz : c.Size < 0 := by
    rw [h1] at h4
    obtain rfl := Option.some.inj h4
    rw [h5]; exact hsize
  refine ⟨c, h1, by rw [Len_eq_length, h3]; rfl, fun k => ?_, fun k v => ?_⟩
  · exact Get_absent c h2 k (by simp [keys, h3])
  · obtain ⟨c₁, c', h6, h7, h8, _, _, h9⟩ := Set_empty_negative c h2 hsz h3 k v
    exact ⟨c₁, c', h6, h7, h8, h9⟩

theorem negative_capacity_keeps_nothing_witness :
    ((-1 : Int) < 0 ∧
      ∃ c, run (New (-1) : Cache String String)
          ([("key-a", "a"), ("key-b", "b")].map (fun p => Call.Set p.1 p.2)) = some c ∧
        Len c = 0 ∧ Get c "key-b" = some ((none, false), c)) ∧
    (WF sample ∧ 0 ≤ sample.Size ∧
      ∃ c' c'', Set sample "key-c" "c" = some c' ∧
        Get c' "key-c" = some ((some "c", true), c'')) := by
  have h := negative_capacity_keeps_nothing (K := String) (V := String)
  refine ⟨⟨by decide, ?_⟩, sample_WF, by decide, h.2 sample "key-c" "c" sample_WF (by decide)⟩
  obtain ⟨c, h1, h2, h3, _⟩ := h.1 (-1) [("key-a", "a"), ("key-b", "b")] (by decide)
  exact ⟨c, h1, h2, h3 "key-b"⟩

/-! ## The LRU store: the index after `Set`, `Remove` and `Evict` -/

theorem getLast_not_mem_dropLast {c : Cache K V} (hc : WF c) {p : K × V}
    (hp : (entries c).getLast? = some p) : p.1 ∉ (entries c).dropLast.map Prod.fst := by
  have hsplit : (entries c).dropLast ++ [p] = entries c := List.dropLast_append_getLast? p hp
  have hn := hc.keys_nodup
  unfold keys at hn
  rw [← hsplit, List.map_append, List.nodup_append] at hn
  intro hm
  exact hn.2.2 hm (by simp)

/-- C2: on a well-formed store of capacity `Size ≥ 0`, `Set(k, v)` for an absent key `k`
returns a well-formed store of the same capacity, with `(k, v)` at the front of the recency
order.  When `Size ≠ 0` and the count after the insertion exceeds `Size`, exactly the last
entry of the old order is removed; otherwise (in particular when `Size = 0`) nothing is
removed.  The remaining old entries follow in their old order with their old values.  The
index holds exactly the keys of the new list, `k` among them, and `Get(k)` on the new store
gives `(v, true)`. -/
theorem Set_absent_key (c : Cache K V) (hc : WF c) (hsize : 0 ≤ c.Size) (k : K) (v : V)
    (hk : k ∉ keys c) :
    ∃ c', Set c k v = some c' ∧ WF c' ∧ c'.Size = c.Size ∧
      entries c' = (if c.Size ≠ 0 ∧ ((Len c : Int) + 1) > c.Size
        then (k, v) :: (entries c).dropLast else (k, v) :: entries c) ∧
      (∀ k', k' ∈ indexed c' ↔ k' ∈ keys c') ∧ k ∈ indexed c' ∧
      ∃ c'', Get c' k = some ((some v, true), c'') := by
  obtain ⟨c', h1, h2, h3⟩ := Set_absent_nonneg c hc hsize k v hk
  obtain ⟨c₂, h4, _, h5, _⟩ := Set_absent c hc k v hk
  have hc₂ : c₂ = c' := Option.some.inj (h4.symm.trans h1)
  subst hc₂
  have hmem : (k, v) ∈ entries c₂ := by
    rw [h3]
    split <;> exact List.mem_cons_self _ _
  obtain ⟨c'', h6, _⟩ := Get_present c₂ h2 k v hmem
  refine ⟨c₂, h1, h2, h5, h3, h2.mem_indexed_iff, ?_, c'', h6⟩
  exact (h2.mem_indexed_iff k).2 (List.mem_map.2 ⟨(k, v), hmem, rfl⟩)

theorem Set_absent_key_witness :
    (WF sample ∧ 0 ≤ sample.Size ∧ "key-c" ∉ keys sample) ∧
      ∃ c', Set sample "key-c" "c" = some c' ∧ WF c' ∧ c'.Size = sample.Size ∧
        entries c' = (if sample.Size ≠ 0 ∧ ((Len sample : Int) + 1) > sample.Size
          then ("key-c", "c") :: (entries sample).dropLast
          else ("key-c", "c") :: entries sample) ∧
        (∀ k', k' ∈ indexed c' ↔ k' ∈ keys c') ∧ "key-c" ∈ indexed c' ∧
        ∃ c'', Get c' "key-c" = some ((some "c", true), c'') :=
  ⟨⟨sample_WF, by decide, by decide⟩,
    Set_absent_key sample sample_WF (by decide) "key-c" "c" (by decide)⟩

/-- C5: on a well-formed store, `Remove(k)` returns a well-formed store of the same
capacity, and returns `true` exactly when `k` was present.  When it returns `true`, `k` is
absent afterwards from the list and from the index, so that `Get(k)` gives `(nil, false)`;
`Len()` has decreased by one and the other entries keep their values and relative order.
When it returns `false` the store is unchanged. -/
theorem Remove_present_or_absent (c : Cache K V) (hc : WF c) (k : K) :
    ∃ ok c', Remove c k = some (ok, c') ∧ WF c' ∧ c'.Size = c.Size ∧
      (ok = true ↔ k ∈ keys c) ∧
      (ok = true → k ∉ keys c' ∧ k ∉ indexed c' ∧ Len c' + 1 = Len c ∧
        entries c' = (entries c).filter (fun p => p.1 ≠ k) ∧
        Get c' k = some ((none, false), c')) ∧
      (ok = false → c' = c) := by
  by_cases hk : k ∈ keys c
  · obtain ⟨c', h1, h2, h3, h4, h5⟩ := Remove_present c hc k hk
    have hnot : k ∉ keys c' := by simp [keys, h4, List.mem_filter]
    refine ⟨true, c', h1, h2, h3, by simp [hk],
      fun _ => ⟨hnot, fun hi => hnot ((h2.mem_indexed_iff k).1 hi), h5, h4,
        Get_absent c' h2 k hnot⟩,
      fun h => Bool.noConfusion h⟩
  · exact ⟨false, c, Remove_absent c hc k hk, hc, rfl, by simp [hk],
      fun h => Bool.noConfusion h, fun _ => rfl⟩

theorem Remove_present_or_absent_witness :
    WF sample ∧
      ∃ ok c', Remove sample "key-a" = some (ok, c') ∧ WF c' ∧ c'.Size = sample.Size ∧
        (ok = true ↔ "key-a" ∈ keys sample) ∧
        (ok = true → "key-a" ∉ keys c' ∧ "key-a" ∉ indexed c' ∧ Len c' + 1 = Len sample ∧
          entries c' = (entries sample).filter (fun p => p.1 ≠ "key-a") ∧
          Get c' "key-a" = some ((none, false), c')) ∧
        (ok = false → c' = sample) :=
  ⟨sample_WF, Remove_present_or_absent sample sample_WF "key-a"⟩

/-- C6: on a well-formed store, whatever its `Size` and its length, `Evict()` returns a
well-formed store of the same capacity and removes exactly the last entry of the recency
order, the other entries keeping their values and order.  The index holds exactly the keys
of the new list, so the key of the removed entry is no longer indexed and `Get` of it gives
`(nil, false)`.  On a store without entries `Evict()` changes nothing. -/
theorem Evict_removes_last (c : Cache K V) (hc : WF c) :
    ∃ c', Evict c = some c' ∧ WF c' ∧ c'.Size = c.Size ∧
      entries c' = (entries c).dropLast ∧
      (∀ k, k ∈ indexed c' ↔ k ∈ keys c') ∧
      (∀ p, (entries c).getLast? = some p →
        p.1 ∉ indexed c' ∧ Get c' p.1 = some ((none, false), c')) ∧
      (entries c = [] → c' = c) := by
  obtain ⟨c', h1, h2, h3, h4, h5⟩ := Evict_spec c hc
  refine ⟨c', h1, h2, h3, h4, h2.mem_indexed_iff, fun p hp => ?_, h5⟩
  have hnot : p.1 ∉ keys c' := by
    unfold keys
    rw [h4]
    exact getLast_not_mem_dropLast hc hp
  exact ⟨fun hi => hnot ((h2.mem_indexed_iff p.1).1 hi), Get_absent c' h2 p.1 hnot⟩

theorem Evict_removes_last_witness :
    (WF sample ∧ (entries sample).getLast? = some ("key-a", "a")) ∧
      ∃ c', Evict sample = some c' ∧ WF c' ∧ c'.Size = sample.Size ∧
        entries c' = (entries sample).dropLast ∧
        (∀ k, k ∈ indexed c' ↔ k ∈ keys c') ∧
        "key-a" ∉ indexed c' ∧ Get c' "key-a" = some ((none, false), c') := by
  obtain ⟨c', h1, h2, h3, h4, h5, h6, _⟩ := Evict_removes_last sample sample_WF
  have hlast : (entries sample).getLast? = some ("key-a", "a") := by decide
  exact ⟨⟨sample_WF, hlast⟩, c', h1, h2, h3, h4, h5, h6 _ hlast⟩

end lru

namespace proxy

variable {D E : Type} [DecidableEq D]

/-! ## The three branches of the worker -/

theorem entry_unique {cache : lru.Cache (Key D) (entry D)} (hc : lru.WF cache) {k : Key D}
    {v v' : entry D} (h : (k, v) ∈ lru.entries cache) (h' : (k, v') ∈ lru.entries cache) :
    v = v' := by
  have := List.inj_on_of_nodup_map hc.keys_nodup h h' rfl
  exact congrArg Prod.snd this

theorem Remove_total (cache : lru.Cache (Key D) (entry D)) (hc : lru.WF cache) (k : Key D) :
    ∃ ok cache', lru.Remove cache k = some (ok, cache') ∧ lru.WF cache' := by
  by_cases hk : k ∈ lru.keys cache
  · obtain ⟨c', h1, h2, _⟩ := lru.Remove_present cache hc k hk
    exact ⟨true, c', h1, h2⟩
  · exact ⟨false, cache, lru.Remove_absent cache hc k hk, hc⟩

theorem lookup_expired (comparable : D → Bool) (expiration : Int)
    (cache : lru.Cache (Key D) (entry D)) (hc : lru.WF cache) (now : Int) (q : query D E)
    (item : entry D) (hk : (Key.str q.key, item) ∈ lru.entries cache)
    (hexp : expiration ≠ 0 ∧ now > item.expiry) :
    (item.data.hashable comparable = false ∧ lookup comparable expiration cache now q = none) ∨
    (item.data.hashable comparable = true ∧ ∃ cache', lru.WF cache' ∧
      lookup comparable expiration cache now q
        = some (cache', { q.result with Metrics := { q.result.Metrics with Expired := true } },
            [])) := by
  obtain ⟨c₁, h1, h2, _⟩ := lru.Get_present cache hc _ item hk
  cases hh : item.data.hashable comparable with
  | false =>
    left
    refine ⟨rfl, ?_⟩
    simp [lookup, h1, hexp, Key.hashable, hh]
  | true =>
    right
    obtain ⟨ok, c₂, h3, h4⟩ := Remove_total c₁ h2 (Key.ent item)
    refine ⟨rfl, c₂, h4, ?_⟩
    simp [lookup, h1, hexp, Key.hashable, hh, h3]

theorem serve_expired (comparable : D → Bool) (expiration : Int)
    (cache : lru.Cache (Key D) (entry D)) (hc : lru.WF cache) (now now2 : Int) (q : query D E)
    (item : entry D) (hk : (Key.str q.key, item) ∈ lru.entries cache)
    (hexp : expiration ≠ 0 ∧ now > item.expiry) :
    (item.data.hashable comparable = false ∧
      serve comparable expiration cache now now2 q = none) ∨
    (item.data.hashable comparable = true ∧
      ∃ o, serve comparable expiration cache now now2 q = some o ∧
        o.result.Metrics = { q.result.Metrics with Expired := true } ∧
        o.replies = [((q.producer q.key).2, o.result)]) := by
  rcases lookup_expired comparable expiration cache hc now q item hk hexp with
    ⟨h1, h2⟩ | ⟨h1, cache', h2, h3⟩
  · left
    exact ⟨h1, by simp [serve, h2]⟩
  · right
    refine ⟨h1, ?_⟩
    cases hp : q.producer q.key with
    | mk data err =>
      cases err with
      | none =>
        obtain ⟨cache'', h5, _⟩ := Set_total cache' h2 (Key.str q.key)
          { data := data, expiry := now2 + expiration }
        have hs : serve comparable expiration cache now now2 q
            = some { cache := cache''
                     result := { Metrics := { q.result.Metrics with Expired := true },
                                 Request := data }
                     replies := [(none, { Metrics := { q.result.Metrics with Expired := true },
                                          Request := data })]
                     requests := [q.key] } := by
          simp only [serve, h3, hp, h5, List.nil_append]
        exact ⟨_, hs, rfl, rfl⟩
      | some e =>
        have hs : serve comparable expiration cache now now2 q
            = some { cache := cache'
                     result := { q.result with
                                 Metrics := { q.result.Metrics with Expired := true } }
                     replies := [(some e, { q.result with
                                   Metrics := { q.result.Metrics with Expired := true } })]
                     requests := [q.key] } := by
          simp only [serve, h3, hp, List.nil_append]
        exact ⟨_, hs, rfl, rfl⟩

theorem receive_cons (o : Served D E) (err : Option E) (res : Result D)
    (rest : List (Option E × Result D)) (h : o.replies = (err, res) :: rest) :
    ∃ r, receive o = some (r, err) ∧ r.Request = res.Request ∧
      r.Metrics.outcome = res.Metrics.outcome ∧ r.Metrics.Request = res.Metrics.Request ∧
      r.Metrics.Shard = res.Metrics.Shard ∧
      r.Metrics.Done = (err.isSome || res.Metrics.Done) := by
  cases err with
  | none => exact ⟨res, by simp [receive, h], rfl, rfl, rfl, rfl, by simp⟩
  | some e =>
    exact ⟨{ res with Metrics := { res.Metrics with Done := true } }, by simp [receive, h],
      rfl, rfl, rfl, rfl, by simp⟩

/-- What the worker answers to a query that carries the fresh result of `Cache.Get`: either
it panics, which happens exactly on the expired branch with a cached payload that cannot be
hashed, or `Get` receives a result whose outcome flags tell the branch taken. -/
theorem serve_request (comparable : D → Bool) (expiration : Int)
    (cache : lru.Cache (Key D) (entry D)) (hc : lru.WF cache) (now now2 : Int)
    (label key : String) (producer : String → Value D × Option E) :
    (serve comparable expiration cache now now2 ⟨request label, key, producer⟩ = none ∧
      ∃ item, (Key.str key, item) ∈ lru.entries cache ∧
        (expiration ≠ 0 ∧ now > item.expiry) ∧ item.data.hashable comparable = false) ∨
    (∃ o r err, serve comparable expiration cache now now2 ⟨request label, key, producer⟩
        = some o ∧
      receive o = some (r, err) ∧ r.Metrics.Request = false ∧ r.Metrics.Shard = label ∧
      r.Metrics.Done = err.isSome ∧
      (Key.str key ∉ lru.keys cache → r.Metrics.outcome = (false, true, false)) ∧
      (∀ item, (Key.str key, item) ∈ lru.entries cache →
        (item.data.hashable comparable = true ∨ ¬ (expiration ≠ 0 ∧ now > item.expiry)) ∧
        r.Metrics.outcome = if expiration ≠ 0 ∧ now > item.expiry
          then (false, false, true) else (true, false, false))) := by
  by_cases hk : Key.str key ∈ lru.keys cache
  · obtain ⟨item, hitem⟩ := lru.exists_value_of_mem_keys hk
    by_cases hexp : expiration ≠ 0 ∧ now > item.expiry
    · rcases serve_expired comparable expiration cache hc now now2
          ⟨request label, key, producer⟩ item hitem hexp with ⟨h1, h2⟩ | ⟨h1, o, h2, h3, h4⟩
      · exact Or.inl ⟨h2, item, hitem, hexp, h1⟩
      · right
        obtain ⟨r, h5, _, h7, h8, h9, h10⟩ := receive_cons o _ _ _ h4
        refine ⟨o, r, _, h2, h5, ?_, ?_, ?_, fun habs => absurd hk habs, ?_⟩
        · rw [h8, h3]; rfl
        · rw [h9, h3]; rfl
        · rw [h10, h3]; simp [request]
        · intro item' hitem'
          obtain rfl := entry_unique hc hitem hitem'
          refine ⟨Or.inl h1, ?_⟩
          rw [if_pos hexp, h7, h3]
          rfl
    · have hfresh : expiration = 0 ∨ ¬ now > item.expiry := by
        by_cases h0 : expiration = 0
        · exact Or.inl h0
        · exact Or.inr (fun h => hexp ⟨h0, h⟩)
      obtain ⟨o, h1, _, h3⟩ := serve_hit comparable expiration cache hc now now2
        ⟨request label, key, producer⟩ item hitem hfresh
      right
      refine ⟨o, _, none, h1, h3, rfl, rfl, rfl, fun habs => absurd hk habs, ?_⟩
      intro item' hitem'
      obtain rfl := entry_unique hc hitem hitem'
      refine ⟨Or.inr hexp, ?_⟩
      rw [if_neg hexp]
      rfl
  · right
    have hnone : ∀ item, (Key.str key, item) ∉ lru.entries cache :=
      fun item hitem => hk (List.mem_map.2 ⟨_, hitem, rfl⟩)
    cases hp : producer key with
    | mk d err =>
      cases err with
      | none =>
        obtain ⟨cache', _, h2⟩ := serve_miss_success comparable expiration cache hc now now2
          ⟨request label, key, producer⟩ hk d hp
        exact ⟨_, _, none, h2, rfl, rfl, rfl, rfl, fun _ => rfl,
          fun item hitem => absurd hitem (hnone item)⟩
      | some e =>
        have h2 := serve_miss_failure comparable expiration cache hc now now2
          ⟨request label, key, producer⟩ hk d e hp
        exact ⟨_, _, some e, h2, rfl, rfl, rfl, rfl, fun _ => rfl,
          fun item hitem => absurd hitem (hnone item)⟩

/-! ## `Cache.Get` -/

theorem Get_eq (comparable : D → Bool) (cache p : Cache D) (hp : Cache.onceDo cache = some p)
    (t0 now now2 t1 : Int) (key : String) (producer : String → Value D × Option E)
    (shard : shard D)
    (hshard : p.shards[Sum32 (bytes key) % p.shards.length]? = some shard) :
    Cache.Get comparable cache t0 now now2 t1 key producer
      = if shard.stuck then none
        else
          match serve comparable shard.expiration shard.cache now now2
              ⟨request (toString (Sum32 (bytes key) % p.shards.length)), key, producer⟩ with
          | none => none
          | some o =>
            match receive o with
            | none => none
            | some (result, err) =>
              some (({ result with Metrics := { result.Metrics with Latency := t1 - t0 } },
                  err),
                { p with
                  shards := p.shards.set (Sum32 (bytes key) % p.shards.length)
                    { shard with cache := o.cache, stuck := decide (1 < o.replies.length) } }) := by
  simp only [Cache.Get, hp, hshard]

theorem onceDo_once (cache p : Cache D) (hp : Cache.onceDo cache = some p) : p.once = true := by
  unfold Cache.onceDo at hp
  by_cases h : cache.once = true
  · rw [if_pos h] at hp
    obtain rfl := Option.some.inj hp
    exact h
  · rw [if_neg h] at hp
    cases hs : Cache.start cache with
    | none => simp [hs] at hp
    | some c =>
      simp only [hs, Option.map_some'] at hp
      obtain rfl := Option.some.inj hp
      rfl

theorem lookup_label (comparable : D → Bool) (expiration : Int)
    (cache cache' : lru.Cache (Key D) (entry D)) (now : Int) (q : query D E) (res : Result D)
    (replies : List (Option E × Result D))
    (h : lookup comparable expiration cache now q = some (cache', res, replies)) :
    res.Metrics.Shard = q.result.Metrics.Shard ∧
      ∀ x ∈ replies, x.2.Metrics.Shard = q.result.Metrics.Shard := by
  unfold lookup at h
  cases hg : lru.Get cache (Key.str q.key) with
  | none => simp [hg] at h
  | some x =>
    obtain ⟨⟨element, ok⟩, c₁⟩ := x
    simp only [hg] at h
    cases ok with
    | false =>
      simp only [Bool.not_false, if_true, Option.some.injEq, Prod.mk.injEq] at h
      obtain ⟨_, rfl, rfl⟩ := h
      exact ⟨rfl, fun x hx => by cases hx⟩
    | true =>
      cases element with
      | none => simp at h
      | some item =>
        simp only [Bool.not_true, Bool.false_eq_true, if_false] at h
        by_cases hexp : expiration ≠ 0 ∧ now > item.expiry
        · rw [if_pos hexp] at h
          by_cases hh : (Key.ent item).hashable comparable = true
          · rw [if_pos hh] at h
            cases hr : lru.Remove c₁ (Key.ent item) with
            | none => simp [hr] at h
            | some y =>
              simp only [hr, Option.some.injEq, Prod.mk.injEq] at h
              obtain ⟨_, rfl, rfl⟩ := h
              exact ⟨rfl, fun x hx => by cases hx⟩
          · rw [if_neg hh] at h
            exact Option.noConfusion h
        · rw [if_neg hexp] at h
          simp only [Option.some.injEq, Prod.mk.injEq] at h
          obtain ⟨_, rfl, rfl⟩ := h
          refine ⟨rfl, fun x hx => ?_⟩
          rw [List.mem_singleton] at hx
          rw [hx]

theorem serve_label (comparable : D → Bool) (expiration : Int)
    (cache : lru.Cache (Key D) (entry D)) (now now2 : Int) (q : query D E) (o : Served D E)
    (h : serve comparable expiration cache now now2 q = some o) :
    ∀ x ∈ o.replies, x.2.Metrics.Shard = q.result.Metrics.Shard := by
  unfold serve at h
  cases hl : lookup comparable expiration cache now q with
  | none => simp [hl] at h
  | some y =>
    obtain ⟨c₁, res, replies⟩ := y
    obtain ⟨h1, h2⟩ := lookup_label comparable expiration cache c₁ now q res replies hl
    simp only [hl] at h
    cases hp : q.producer q.key with
    | mk data err =>
      simp only [hp] at h
      cases err with
      | none =>
        simp only at h
        cases hs : lru.Set c₁ (Key.str q.key) { data := data, expiry := now2 + expiration } with
        | none => simp [hs] at h
        | some c₂ =>
          simp only [hs, Option.some.injEq] at h
          subst h
          intro x hx
          rcases List.mem_append.1 hx with hx | hx
          · exact h2 x hx
          · rw [List.mem_singleton] at hx
            rw [hx]; exact h1
      | some e =>
        simp only [Option.some.injEq] at h
        subst h
        intro x hx
        rcases List.mem_append.1 hx with hx | hx
        · exact h2 x hx
        · rw [List.mem_singleton] at hx
          rw [hx]; exact h1

theorem serve_hit_result (comparable : D → Bool) (expiration : Int)
    (cache : lru.Cache (Key D) (entry D)) (hc : lru.WF cache) (now now2 : Int) (q : query D E)
    (item : entry D) (hk : (Key.str q.key, item) ∈ lru.entries cache)
    (hfresh : expiration = 0 ∨ ¬ now > item.expiry) :
    ∃ o, serve comparable expiration cache now now2 q = some o ∧
      o.result.Metrics = { q.result.Metrics with Hit := true } ∧
      receive o = some ({ Metrics := { q.result.Metrics with Hit := true },
                          Request := item.data }, none) := by
  obtain ⟨cache', h1, _, _, h4⟩ := lookup_hit comparable expiration cache hc now q item hk hfresh
  cases hp : q.producer q.key with
  | mk data err =>
    cases err with
    | none =>
      obtain ⟨cache'', h5, _⟩ := Set_total cache' h1 (Key.str q.key)
        { data := data, expiry := now2 + expiration }
      have hs : serve comparable expiration cache now now2 q
          = some { cache := cache''
                   result := { Metrics := { q.result.Metrics with Hit := true }, Request := data }
                   replies := [(none, { Metrics := { q.result.Metrics with Hit := true },
                                        Request := item.data }),
                               (none, { Metrics := { q.result.Metrics with Hit := true },
                                        Request := data })]
                   requests := [q.key] } := by
        simp only [serve, h4, hp, h5, List.singleton_append]
      exact ⟨_, hs, rfl, rfl⟩
    | some e =>
      have hs : serve comparable expiration cache now now2 q
          = some { cache := cache'
                   result := { Metrics := { q.result.Metrics with Hit := true },
                               Request := item.data }
                   replies := [(none, { Metrics := { q.result.Metrics with Hit := true },
                                        Request := item.data }),
                               (some e, { Metrics := { q.result.Metrics with Hit := true },
                                          Request := item.data })]
                   requests := [q.key] } := by
        simp only [serve, h4, hp, List.singleton_append]
      exact ⟨_, hs, rfl, rfl⟩

/-! ## The proxy: claims -/

/-- C11: on a shard configured with expiration 0, for every well-formed store, every key
present in it, whatever its stored expiry and whatever the clock, the worker answers the
request with the cached value and the Hit flag; no other flag of the result is touched, in
particular not Expired. -/
theorem serve_zero_expiration_hit (comparable : D → Bool)
    (cache : lru.Cache (Key D) (entry D)) (hc : lru.WF cache) (now now2 : Int) (q : query D E)
    (item : entry D) (hk : (Key.str q.key, item) ∈ lru.entries cache) :
    ∃ o, serve comparable 0 cache now now2 q = some o ∧
      receive o = some ({ Metrics := { q.result.Metrics with Hit := true },
                          Request := item.data }, none) ∧
      o.result.Metrics = { q.result.Metrics with Hit := true } := by
  obtain ⟨o, h1, h2, h3⟩ :=
    serve_hit_result comparable 0 cache hc now now2 q item hk (Or.inl rfl)
  exact ⟨o, h1, h3, h2⟩

theorem serve_zero_expiration_hit_witness :
    (lru.WF cached ∧ (Key.str "k", (⟨Value.data "old", 100⟩ : entry String)) ∈
        lru.entries cached) ∧
    ∃ o, serve (fun _ => true) 0 cached 1000 1001 ⟨request "0", "k", fail⟩ = some o ∧
      receive o = some ({ Metrics := { (request "0" : Result String).Metrics with
                                        Hit := true },
                          Request := Value.data "old" }, none) ∧
      o.result.Metrics = { (request "0" : Result String).Metrics with Hit := true } :=
  ⟨⟨cached_WF, by decide⟩,
    serve_zero_expiration_hit (fun _ => true) cached cached_WF 1000 1001
      ⟨request "0", "k", fail⟩ ⟨Value.data "old", 100⟩ (by decide)⟩

/-- C12: let `shard` be the shard that `Get` selects for `key`, with a well-formed store.
Whenever `Get` returns a result, its outcome flags `(Hit, Miss, Expired)` are
`(false, true, false)` if the key was absent from the store, `(false, false, true)` if it was
present with a non-zero expiration and past its expiry, and `(true, false, false)` if it was
present and not expired: exactly one flag is set.  And `Get` does return when the worker of
the shard is not stuck and the payload cached under the key, if it is expired, can be
hashed. -/
theorem Get_outcome (comparable : D → Bool) (cache p : Cache D)
    (hp : Cache.onceDo cache = some p) (t0 now now2 t1 : Int) (key : String)
    (producer : String → Value D × Option E) (shard : shard D)
    (hshard : p.shards[Sum32 (bytes key) % p.shards.length]? = some shard)
    (hwf : lru.WF shard.cache) :
    (shard.stuck = false →
      (∀ item, (Key.str key, item) ∈ lru.entries shard.cache → shard.expiration ≠ 0 →
        now > item.expiry → item.data.hashable comparable = true) →
      ∃ r err cache',
        Cache.Get comparable cache t0 now now2 t1 key producer = some ((r, err), cache')) ∧
    ∀ r err cache',
      Cache.Get comparable cache t0 now now2 t1 key producer = some ((r, err), cache') →
      (Key.str key ∉ lru.keys shard.cache → r.Metrics.outcome = (false, true, false)) ∧
      (∀ item, (Key.str key, item) ∈ lru.entries shard.cache →
        r.Metrics.outcome = if shard.expiration ≠ 0 ∧ now > item.expiry
          then (false, false, true) else (true, false, false)) := by
  rw [Get_eq comparable cache p hp t0 now now2 t1 key producer shard hshard]
  rcases serve_request comparable shard.expiration shard.cache hwf now now2
      (toString (Sum32 (bytes key) % p.shards.length)) key producer with
    ⟨h1, item, hitem, hexp, hh⟩ | ⟨o, r0, err0, h1, h2, _, _, _, h6, h7⟩
  · simp only [h1]
    constructor
    · intro _ hsafe
      have := hsafe item hitem hexp.1 hexp.2
      rw [hh] at this
      exact Bool.noConfusion this
    · intro r err cache' hget
      simp at hget
  · simp only [h1, h2]
    constructor
    · intro hst _
      simp only [hst, Bool.false_eq_true, if_false]
      exact ⟨_, _, _, rfl⟩
    · intro r err cache' hget
      by_cases hst : shard.stuck = true
      · rw [if_pos hst] at hget
        exact Option.noConfusion hget
      · rw [if_neg hst] at hget
        simp only [Option.some.injEq, Prod.mk.injEq] at hget
        obtain ⟨⟨rfl, _⟩, _⟩ := hget
        exact ⟨h6, fun item hitem => (h7 item hitem).2⟩

theorem Get_outcome_witness :
    (Cache.onceDo started = some started ∧
      started.shards[Sum32 (bytes "k") % started.shards.length]?
        = some { cache := cached, expiration := 10, stuck := false } ∧
      lru.WF cached ∧
      (Key.str "k", (⟨Value.data "old", 100⟩ : entry String)) ∈ lru.entries cached) ∧
    ∃ r err cache',
      Cache.Get (fun _ => true) started 0 150 160 170 "k" fail = some ((r, err), cache') ∧
      r.Metrics.outcome = (false, false, true) := by
  have h := Get_outcome (fun _ => true) started started rfl 0 150 160 170 "k" fail
    { cache := cached, expiration := 10, stuck := false } (by decide) cached_WF
  refine ⟨⟨rfl, by decide, cached_WF, by decide⟩, ?_⟩
  obtain ⟨r, err, cache', hget⟩ := h.1 rfl
    (fun item _ _ _ => by cases hd : item.data <;> simp [Value.hashable])
  refine ⟨r, err, cache', hget, ?_⟩
  have h2 := (h.2 r err cache' hget).2 ⟨Value.data "old", 100⟩ (by decide)
  rw [h2]
  decide

/-- C13: at the failing input, the first `Get` on a proxy with one partition, for `"hello"`.
With a producer that succeeds the returned result has `Metrics.Request = false`; with a
producer that fails it has `Metrics.Request = false` too, and the `true` assigned by
`result.Request = true` is found in the outer field `Result.Request`, which that selector
denotes. -/
theorem Get_Metrics_Request_false :
    (Cache.Get (fun _ => true) (single 0) 0 1 2 3 "hello" succeed).map Prod.fst
      = some ({ Metrics := { Request := false, Hit := false, Expired := false, Miss := true,
                             Done := false, Shard := "0", Latency := 3 }
                Request := Value.data "new" }, none) ∧
    (Cache.Get (fun _ => true) (single 0) 0 1 2 3 "hello" fail).map Prod.fst
      = some ({ Metrics := { Request := false, Hit := false, Expired := false, Miss := true,
                             Done := true, Shard := "0", Latency := 3 }
                Request := Value.bool true }, some "boom") := by
  decide

/-- C14: at the failing input, the first `Get` on a proxy with one partition, for `"hello"`.
With a producer that succeeds the call returns a nil error and `Done = false`; with a
producer that fails it returns the error `"boom"` and `Done = true`. -/
theorem Get_Done_on_error :
    (Cache.Get (fun _ => true) (single 0) 0 1 2 3 "hello" succeed).map
        (fun x => (x.1.1.Metrics.Done, x.1.2)) = some (false, none) ∧
    (Cache.Get (fun _ => true) (single 0) 0 1 2 3 "hello" fail).map
        (fun x => (x.1.1.Metrics.Done, x.1.2)) = some (true, some "boom") := by
  decide

/-- C19: at the failing input, a request for the key `"k"` cached in `cached`, on a shard
with expiration 0 and a producer that fails.  The worker sends nil on the reply channel
(the hit) and afterwards sends the producer error `"boom"` on the same channel: two sends
for one request.  `Get` receives only the first; the worker stays blocked in the second, so
that on the proxy `started`, after one `Get` answered as a hit, the next `Get` for the same
shard does not return. -/
theorem serve_hit_sends_twice :
    (serve (fun _ => true) 0 cached 50 60 ⟨request "0", "k", fail⟩).map
        (fun o => o.replies.map Prod.fst) = some [none, some "boom"] ∧
    (Cache.Get (fun _ => true) started 0 50 60 70 "k" fail).map
        (fun x => (x.1.1.Metrics.Hit, x.1.2, x.2.shards.map (fun s => s.stuck)))
      = some (true, none, [true]) ∧
    ((Cache.Get (fun _ => true) started 0 50 60 70 "k" fail).bind
        (fun x => Cache.Get (fun _ => true) x.2 80 90 91 92 "k" fail)) = none := by
  decide

/-! ## Routing -/

theorem utf8_lt (c : Char) : ∀ b ∈ utf8 c, b < 256 := by
  have hc : c.toNat < 1114112 := by
    have h := c.valid
    simp only [UInt32.isValidChar, Nat.isValidChar] at h
    have : c.toNat = c.val.toNat := rfl
    omega
  intro b hb
  unfold utf8 at hb
  simp only at hb
  split at hb
  · simp only [List.mem_singleton] at hb; omega
  · split at hb
    · simp only [List.mem_cons, List.mem_singleton, List.not_mem_nil, or_false] at hb
      omega
    · split at hb
      · simp only [List.mem_cons, List.mem_singleton, List.not_mem_nil, or_false] at hb
        omega
      · simp only [List.mem_cons, List.mem_singleton, List.not_mem_nil, or_false] at hb
        omega

theorem bytes_lt (key : String) : ∀ b ∈ bytes key, b < 256 := by
  intro b hb
  unfold bytes at hb
  rw [List.mem_flatten] at hb
  obtain ⟨l, hl, hbl⟩ := hb
  obtain ⟨c, _, rfl⟩ := List.mem_map.1 hl
  exact utf8_lt c b hbl

theorem foldl_fnv_lt (data : List Nat) (hdata : ∀ b ∈ data, b < 256) (hash : Nat)
    (hhash : hash < 2 ^ 32) :
    data.foldl (fun hash c => (hash * 16777619 % 2 ^ 32) ^^^ c) hash < 2 ^ 32 := by
  induction data generalizing hash with
  | nil => exact hhash
  | cons c data ih =>
    rw [List.foldl_cons]
    apply ih (fun b hb => hdata b (List.mem_cons_of_mem _ hb))
    apply Nat.xor_lt_two_pow (Nat.mod_lt _ (by norm_num))
    have := hdata c (List.mem_cons_self _ _)
    omega

theorem Sum32_lt (key : String) : Sum32 (bytes key) < 2 ^ 32 :=
  foldl_fnv_lt (bytes key) (bytes_lt key) 2166136261 (by norm_num)

theorem receive_label (o : Served D E) (r : Result D) (err : Option E)
    (h : receive o = some (r, err)) : ∃ x ∈ o.replies, r.Metrics.Shard = x.2.Metrics.Shard := by
  unfold receive at h
  cases hr : o.replies with
  | nil => simp [hr] at h
  | cons x rest =>
    obtain ⟨e, res⟩ := x
    rw [hr] at h
    cases e with
    | none =>
      simp only [Option.some.injEq, Prod.mk.injEq] at h
      exact ⟨(none, res), List.mem_cons_self _ _, by rw [← h.1]⟩
    | some e =>
      simp only [Option.some.injEq, Prod.mk.injEq] at h
      exact ⟨(some e, res), List.mem_cons_self _ _, by rw [← h.1]⟩

theorem Get_label (comparable : D → Bool) (cache p : Cache D)
    (hp : Cache.onceDo cache = some p) (t0 now now2 t1 : Int) (key : String)
    (producer : String → Value D × Option E) (r : Result D) (err : Option E)
    (cache' : Cache D)
    (hget : Cache.Get comparable cache t0 now now2 t1 key producer = some ((r, err), cache')) :
    r.Metrics.Shard = toString (Sum32 (bytes key) % p.shards.length) ∧
      cache'.once = true ∧ cache'.shards.length = p.shards.length := by
  cases hs : p.shards[Sum32 (bytes key) % p.shards.length]? with
  | none => simp [Cache.Get, hp, hs] at hget
  | some shard =>
    rw [Get_eq comparable cache p hp t0 now now2 t1 key producer shard hs] at hget
    by_cases hst : shard.stuck = true
    · rw [if_pos hst] at hget
      exact Option.noConfusion hget
    · rw [if_neg hst] at hget
      cases hserve : serve comparable shard.expiration shard.cache now now2
          ⟨request (toString (Sum32 (bytes key) % p.shards.length)), key, producer⟩ with
      | none => simp [hserve] at hget
      | some o =>
        simp only [hserve] at hget
        cases hrecv : receive o with
        | none => simp [hrecv] at hget
        | some y =>
          obtain ⟨r0, err0⟩ := y
          simp only [hrecv, Option.some.injEq, Prod.mk.injEq] at hget
          obtain ⟨⟨rfl, _⟩, rfl⟩ := hget
          obtain ⟨x, hx, hxr⟩ := receive_label o r0 err0 hrecv
          have hlab := serve_label comparable shard.expiration shard.cache now now2 _ o hserve
            x hx
          refine ⟨?_, onceDo_once cache p hp, by simp⟩
          show r0.Metrics.Shard = _
          rw [hxr, hlab]
          rfl

theorem Sum32_snoc (data : List Nat) (c : Nat) :
    Sum32 (data ++ [c]) = (Sum32 data * 16777619 % 2 ^ 32) ^^^ c := by
  simp [Sum32, List.foldl_append]

/-- C15: let `p` be the proxy after `once.Do(cache.start)`, with `P = len(p.shards) ≥ 1`
shards.  The hash is 32-bit FNV-1: 2166136261 on no bytes, and for one more byte `c` the
old hash times 16777619 modulo `2 ^ 32`, xor `c`.  For every key, the hash of its bytes is
below `2 ^ 32`, the index `hash % P` that `Get` computes is below `P`, so `p.shards[index]`
exists, and every result that `Get` returns carries the decimal rendering of that index as
`Shard`.  The index is a function of the key and `P` alone: a later `Get` for the same key,
whatever its clock and producer, returns the same `Shard`. -/
theorem Get_shard_index (comparable : D → Bool) (cache p : Cache D)
    (hp : Cache.onceDo cache = some p) (hP : 1 ≤ p.shards.length) (t0 now now2 t1 : Int)
    (key : String) (producer : String → Value D × Option E) :
    Sum32 [] = 2166136261 ∧
    (∀ data c, Sum32 (data ++ [c]) = (Sum32 data * 16777619 % 2 ^ 32) ^^^ c) ∧
    Sum32 (bytes key) < 2 ^ 32 ∧
    Sum32 (bytes key) % p.shards.length < p.shards.length ∧
    (∃ shard, p.shards[Sum32 (bytes key) % p.shards.length]? = some shard) ∧
    ∀ r err cache',
      Cache.Get comparable cache t0 now now2 t1 key producer = some ((r, err), cache') →
      r.Metrics.Shard = toString (Sum32 (bytes key) % p.shards.length) ∧
      ∀ (comparable' : D → Bool) (t0' now' now2' t1' : Int)
        (producer' : String → Value D × Option E) r' err' cache'',
        Cache.Get comparable' cache' t0' now' now2' t1' key producer'
          = some ((r', err'), cache'') →
        r'.Metrics.Shard = r.Metrics.Shard := by
  have hlt : Sum32 (bytes key) % p.shards.length < p.shards.length :=
    Nat.mod_lt _ (by omega)
  refine ⟨rfl, Sum32_snoc, Sum32_lt key, hlt,
    ⟨p.shards[Sum32 (bytes key) % p.shards.length], ?_⟩, ?_⟩
  · exact List.getElem?_eq_getElem hlt
  · intro r err cache' hget
    obtain ⟨h1, h2, h3⟩ := Get_label comparable cache p hp t0 now now2 t1 key producer r err
      cache' hget
    refine ⟨h1, ?_⟩
    intro comparable' t0' now' now2' t1' producer' r' err' cache'' hget'
    have hp' : Cache.onceDo cache' = some cache' := by simp [Cache.onceDo, h2]
    obtain ⟨h4, _, _⟩ := Get_label comparable' cache' cache' hp' t0' now' now2' t1' key
      producer' r' err' cache'' hget'
    rw [h4, h1, h3]

theorem Get_shard_index_witness :
    (Cache.onceDo zero = some allocated ∧ 1 ≤ allocated.shards.length) ∧
    Sum32 (bytes "hello") = 3069866343 ∧ Sum32 (bytes "jack") = 3865235296 ∧
    (∃ r err cache',
      Cache.Get (fun _ => true) zero 0 1 2 3 "hello" succeed = some ((r, err), cache') ∧
      r.Metrics.Shard = "39" ∧
      ∃ r' err' cache'',
        Cache.Get (fun _ => true) cache' 4 5 6 7 "hello" fail = some ((r', err'), cache'') ∧
        r'.Metrics.Shard = "39") ∧
    ∃ r err cache',
      Cache.Get (fun _ => true) zero 0 1 2 3 "jack" succeed = some ((r, err), cache') ∧
      r.Metrics.Shard = "32" := by
  have hzero : Cache.onceDo zero = some allocated := by decide
  have h1 := Get_shard_index (fun _ => true) zero allocated hzero (by decide) 0 1 2 3
    "hello" succeed
  have h2 := Get_shard_index (fun _ => true) zero allocated hzero (by decide) 0 1 2 3
    "jack" succeed
  have hs1 : (Cache.Get (fun _ => true) zero 0 1 2 3 "hello" succeed).isSome = true := by
    decide
  have hs2 : (Cache.Get (fun _ => true) zero 0 1 2 3 "jack" succeed).isSome = true := by
    decide
  have hs3 : ((Cache.Get (fun _ => true) zero 0 1 2 3 "hello" succeed).bind
      (fun x => Cache.Get (fun _ => true) x.2 4 5 6 7 "hello" fail)).isSome = true := by
    decide
  obtain ⟨x1, hx1⟩ := Option.isSome_iff_exists.1 hs1
  obtain ⟨⟨r1, err1⟩, c1⟩ := x1
  obtain ⟨x2, hx2⟩ := Option.isSome_iff_exists.1 hs2
  obtain ⟨⟨r2, err2⟩, c2⟩ := x2
  obtain ⟨x3, hx3⟩ := Option.isSome_iff_exists.1 hs3
  obtain ⟨⟨r3, err3⟩, c3⟩ := x3
  rw [hx1] at hx3
  have hl1 := h1.2.2.2.2.2 r1 err1 c1 hx1
  have hl2 := (h2.2.2.2.2.2 r2 err2 c2 hx2).1
  have e1 : toString (Sum32 (bytes "hello") % allocated.shards.length) = "39" := by decide
  have e2 : toString (Sum32 (bytes "jack") % allocated.shards.length) = "32" := by decide
  refine ⟨⟨hzero, by decide⟩, by decide, by decide,
    ⟨r1, err1, c1, hx1, hl1.1.trans e1, r3, err3, c3, hx3, ?_⟩,
    ⟨r2, err2, c2, hx2, hl2.trans e2⟩⟩
  exact (hl1.2 (fun _ => true) 4 5 6 7 fail r3 err3 c3 hx3).trans (hl1.1.trans e1)

/-! ## Allocation of the shards -/

theorem run_append (c : lru.Cache (Key D) (entry D)) (a b : List (lru.Call (Key D) (entry D))) :
    lru.run c (a ++ b) = (lru.run c a).bind (fun c' => lru.run c' b) := by
  induction a generalizing c with
  | nil => rfl
  | cons call a ih =>
    simp only [List.cons_append, lru.run]
    cases lru.step c call with
    | none => rfl
    | some c₁ => exact ih c₁

theorem lookup_run (comparable : D → Bool) (expiration : Int)
    (cache cache' : lru.Cache (Key D) (entry D)) (now : Int) (q : query D E) (res : Result D)
    (replies : List (Option E × Result D))
    (h : lookup comparable expiration cache now q = some (cache', res, replies)) :
    ∃ calls, lru.run cache calls = some cache' := by
  unfold lookup at h
  cases hg : lru.Get cache (Key.str q.key) with
  | none => simp [hg] at h
  | some x =>
    obtain ⟨⟨element, ok⟩, c₁⟩ := x
    have hstep : lru.run cache [lru.Call.Get (Key.str q.key)] = some c₁ := by
      simp [lru.run, lru.step, hg]
    simp only [hg] at h
    cases ok with
    | false =>
      simp only [Bool.not_false, if_true, Option.some.injEq, Prod.mk.injEq] at h
      obtain ⟨rfl, _, _⟩ := h
      exact ⟨_, hstep⟩
    | true =>
      cases element with
      | none => simp at h
      | some item =>
        simp only [Bool.not_true, Bool.false_eq_true, if_false] at h
        by_cases hexp : expiration ≠ 0 ∧ now > item.expiry
        · rw [if_pos hexp] at h
          by_cases hh : (Key.ent item).hashable comparable = true
          · rw [if_pos hh] at h
            cases hr : lru.Remove c₁ (Key.ent item) with
            | none => simp [hr] at h
            | some y =>
              obtain ⟨b, c₂⟩ := y
              simp only [hr, Option.some.injEq, Prod.mk.injEq] at h
              obtain ⟨rfl, _, _⟩ := h
              refine ⟨[lru.Call.Get (Key.str q.key), lru.Call.Remove (Key.ent item)], ?_⟩
              simp [lru.run, lru.step, hg, hr]
          · rw [if_neg hh] at h
            exact Option.noConfusion h
        · rw [if_neg hexp] at h
          simp only [Option.some.injEq, Prod.mk.injEq] at h
          obtain ⟨rfl, _, _⟩ := h
          exact ⟨_, hstep⟩

theorem serve_run (comparable : D → Bool) (expiration : Int)
    (cache : lru.Cache (Key D) (entry D)) (now now2 : Int) (q : query D E) (o : Served D E)
    (h : serve comparable expiration cache now now2 q = some o) :
    ∃ calls, lru.run cache calls = some o.cache := by
  unfold serve at h
  cases hl : lookup comparable expiration cache now q with
  | none => simp [hl] at h
  | some y =>
    obtain ⟨c₁, res, replies⟩ := y
    obtain ⟨calls, hcalls⟩ := lookup_run comparable expiration cache c₁ now q res replies hl
    simp only [hl] at h
    cases hp : q.producer q.key with
    | mk data err =>
      simp only [hp] at h
      cases err with
      | none =>
        simp only at h
        cases hs : lru.Set c₁ (Key.str q.key) { data := data, expiry := now2 + expiration } with
        | none => simp [hs] at h
        | some c₂ =>
          simp only [hs, Option.some.injEq] at h
          subst h
          refine ⟨calls ++ [lru.Call.Set (Key.str q.key)
            { data := data, expiry := now2 + expiration }], ?_⟩
          rw [run_append, hcalls]
          simp [lru.run, lru.step, hs]
      | some e =>
        simp only [Option.some.injEq] at h
        subst h
        exact ⟨calls, hcalls⟩

theorem serveAll_run (comparable : D → Bool) (expiration : Int)
    (queries : List (Int × Int × query D E)) (cache c : lru.Cache (Key D) (entry D))
    (h : serveAll comparable expiration cache queries = some c) :
    ∃ calls, lru.run cache calls = some c := by
  induction queries generalizing cache with
  | nil =>
    simp only [serveAll, Option.some.injEq] at h
    exact ⟨[], by rw [h]; rfl⟩
  | cons x queries ih =>
    obtain ⟨now, now2, q⟩ := x
    simp only [serveAll] at h
    cases hs : serve comparable expiration cache now now2 q with
    | none => simp [hs] at h
    | some o =>
      simp only [hs] at h
      obtain ⟨calls, hcalls⟩ := serve_run comparable expiration cache now now2 q o hs
      obtain ⟨calls', hcalls'⟩ := ih o.cache h
      exact ⟨calls ++ calls', by rw [run_append, hcalls]; exact hcalls'⟩

theorem serveAll_bounded (comparable : D → Bool) (expiration : Int) (size : Int)
    (hsize : 0 < size) (queries : List (Int × Int × query D E))
    (c : lru.Cache (Key D) (entry D))
    (h : serveAll comparable expiration (lru.New size) queries = some c) :
    (lru.Len c : Int) ≤ size := by
  obtain ⟨calls, hcalls⟩ := serveAll_run comparable expiration queries (lru.New size) c h
  obtain ⟨c', h1, _, _, h4⟩ := lru.run_spec calls (lru.New size : lru.Cache (Key D) (entry D))
    (lru.WF_New size) size hsize rfl (by simpa [lru.New, lru.Len] using le_of_lt hsize)
  rw [hcalls] at h1
  obtain rfl := Option.some.inj h1
  exact h4

/-- C16, as stated, fails for negative settings: with `PartitionCount = -1` the allocation
`make([]shard, count)` panics and there are no shards at all; with `CacheSize = -1` the shard
store has capacity `-1` and its 0 entries are not at most that many. -/
theorem start_negative_configuration :
    Cache.start ({ PartitionCount := -1, CacheSize := 0, Expiration := 0, shards := [],
                   once := false } : Cache String) = none ∧
    (Cache.start ({ PartitionCount := 1, CacheSize := -1, Expiration := 0, shards := [],
                    once := false } : Cache String)).map
        (fun p => p.shards.map (fun s =>
          (s.cache.Size, lru.Len s.cache, decide ((lru.Len s.cache : Int) ≤ s.cache.Size))))
      = some [(-1, 0, false)] := by
  decide

/-- C16 (amended): for `PartitionCount ≥ 0`, `cache.start()` returns with `PartitionCount`
shards if that is non-zero and 64 if it is 0; every shard has the configured expiration and
a fresh LRU store of capacity `CacheSize` if that is non-zero and 4096 if it is 0, never the
unbounded capacity 0; and for `CacheSize ≥ 0`, whatever queries the worker has served, the
store holds at most that many entries. -/
theorem start_defaults (cache : Cache D) (hcount : 0 ≤ cache.PartitionCount) :
    ∃ p, Cache.start cache = some p ∧
      (p.shards.length : Int) = (if cache.PartitionCount = 0 then 64 else cache.PartitionCount) ∧
      ∀ s ∈ p.shards, s.expiration = cache.Expiration ∧
        s.cache = lru.New (if cache.CacheSize = 0 then 4096 else cache.CacheSize) ∧
        s.cache.Size ≠ 0 ∧
        (0 ≤ cache.CacheSize →
          ∀ (comparable : D → Bool) (queries : List (Int × Int × query D E)) c,
            serveAll comparable s.expiration s.cache queries = some c →
            (lru.Len c : Int) ≤ (if cache.CacheSize = 0 then 4096 else cache.CacheSize)) := by
  have hcount' : ¬ (if cache.PartitionCount = 0 then DefaultPartitionCount
      else cache.PartitionCount) < 0 := by
    unfold DefaultPartitionCount
    split <;> omega
  have hstart : Cache.start cache
      = some { cache with
          shards := List.replicate
            (if cache.PartitionCount = 0 then DefaultPartitionCount
              else cache.PartitionCount).toNat
            (shard.start cache.CacheSize cache.Expiration) } := by
    simp only [Cache.start, if_neg hcount']
  refine ⟨_, hstart, ?_, ?_⟩
  · simp only [List.length_replicate, DefaultPartitionCount]
    split <;> omega
  · intro s hs
    obtain rfl := List.eq_of_mem_replicate hs
    have hne : (if cache.CacheSize = 0 then (4096 : Int) else cache.CacheSize) ≠ 0 := by
      split <;> omega
    refine ⟨rfl, rfl, hne, ?_⟩
    intro hsz comparable queries c hc
    have hpos : 0 < (if cache.CacheSize = 0 then (4096 : Int) else cache.CacheSize) := by
      split <;> omega
    exact serveAll_bounded comparable _ _ hpos queries c hc

theorem start_defaults_witness :
    (0 ≤ (single 10).PartitionCount ∧ 0 ≤ (single 10).CacheSize) ∧
    ∃ p, Cache.start (single 10) = some p ∧ (p.shards.length : Int) = 1 ∧
      ∀ s ∈ p.shards, s.cache = lru.New 4096 ∧
        ∀ c, serveAll (fun _ => true) s.expiration s.cache
            [(1, 2, ⟨request "0", "a", succeed⟩), (3, 4, ⟨request "0", "b", fail⟩)] = some c →
          (lru.Len c : Int) ≤ 4096 := by
  obtain ⟨p, h1, h2, h3⟩ := start_defaults (E := String) (single 10) (by decide)
  refine ⟨⟨by decide, by decide⟩, p, h1, by simpa [single] using h2, fun s hs => ?_⟩
  obtain ⟨_, h5, _, h7⟩ := h3 s hs
  refine ⟨by simpa [single] using h5, fun c hc => ?_⟩
  have := h7 (by decide) (fun _ => true) _ c hc
  simpa [single] using this

/-! ## A miss followed by a hit -/

theorem serve_hit_first (comparable : D → Bool) (expiration : Int)
    (cache : lru.Cache (Key D) (entry D)) (hc : lru.WF cache) (now now2 : Int) (q : query D E)
    (item : entry D) (hk : (Key.str q.key, item) ∈ lru.entries cache)
    (hfresh : expiration = 0 ∨ ¬ now > item.expiry) :
    ∃ o, serve comparable expiration cache now now2 q = some o ∧
      o.result.Metrics = { q.result.Metrics with Hit := true } ∧
      o.replies.head? = some (none, { Metrics := { q.result.Metrics with Hit := true },
                                      Request := item.data }) := by
  obtain ⟨cache', h1, _, _, h4⟩ := lookup_hit comparable expiration cache hc now q item hk hfresh
  cases hp : q.producer q.key with
  | mk data err =>
    cases err with
    | none =>
      obtain ⟨cache'', h5, _⟩ := Set_total cache' h1 (Key.str q.key)
        { data := data, expiry := now2 + expiration }
      have hs : serve comparable expiration cache now now2 q
          = some { cache := cache''
                   result := { Metrics := { q.result.Metrics with Hit := true }, Request := data }
                   replies := [(none, { Metrics := { q.result.Metrics with Hit := true },
                                        Request := item.data }),
                               (none, { Metrics := { q.result.Metrics with Hit := true },
                                        Request := data })]
                   requests := [q.key] } := by
        simp only [serve, h4, hp, h5, List.singleton_append]
      exact ⟨_, hs, rfl, rfl⟩
    | some e =>
      have hs : serve comparable expiration cache now now2 q
          = some { cache := cache'
                   result := { Metrics := { q.result.Metrics with Hit := true },
                               Request := item.data }
                   replies := [(none, { Metrics := { q.result.Metrics with Hit := true },
                                        Request := item.data }),
                               (some e, { Metrics := { q.result.Metrics with Hit := true },
                                          Request := item.data })]
                   requests := [q.key] } := by
        simp only [serve, h4, hp, List.singleton_append]
      exact ⟨_, hs, rfl, rfl⟩

/-- C8, as stated, fails in two ways.  On a shard whose store has a negative capacity: on the
fresh store `New(-1)` a request for `"k"` with a succeeding producer is a Miss answered with
`"new"`, but the store holds no entry afterwards (the new entry is evicted at once), and the
request that follows immediately on that store is marked Miss again, not Hit.  On a shard
with a negative expiration: on the fresh store `New(4)` with expiration `-1` the entry is
stored at clock reading 60 with expiry 59, and the request that follows immediately, served
at the very same clock reading 60, is marked Expired, not Hit. -/
theorem serve_miss_then_not_hit :
    (serve (fun _ => true) 0 (lru.New (-1)) 0 0 ⟨request "0", "k", succeed⟩).map
        (fun o => (o.result.Metrics.Miss, o.result.Request, lru.entries o.cache))
      = some (true, Value.data "new", []) ∧
    ((serve (fun _ => true) 0 (lru.New (-1)) 0 0 ⟨request "0", "k", succeed⟩).bind
        (fun o => serve (fun _ => true) 0 o.cache 0 0 ⟨request "0", "k", succeed⟩)).map
        (fun o => (o.result.Metrics.Miss, o.result.Metrics.Hit))
      = some (true, false) ∧
    (serve (fun _ => true) (-1) (lru.New 4) 50 60 ⟨request "0", "k", succeed⟩).map
        (fun o => (o.result.Metrics.Miss, lru.entries o.cache))
      = some (true, [(Key.str "k", ⟨Value.data "new", 59⟩)]) ∧
    ((serve (fun _ => true) (-1) (lru.New 4) 50 60 ⟨request "0", "k", succeed⟩).bind
        (fun o => serve (fun _ => true) (-1) o.cache 60 61 ⟨request "0", "k", succeed⟩)).map
        (fun o => (o.result.Metrics.Expired, o.result.Metrics.Hit))
      = some (true, false) := by
  decide

/-- C8 (amended): for a key absent from a well-formed shard store, the request is marked
Miss and `producer.Request` is called exactly once, with that key; if it succeeds with `d`,
the single reply is a nil error with `Request = d`, which is what `Get` returns.  When the
store capacity is not negative, the store is then well-formed and holds
`key ↦ {d, now2 + expiration}` as its most recent, indexed entry (after the capacity
eviction of `Set`, if any), and the request for the same key that is served next on that
store, not past this expiry or with expiration 0, is marked Hit, the result holding `d` when
the worker sends its reply; so it is in particular when no time has passed (clock reading
`now2` again) and the expiration is not negative. -/
theorem serve_miss_then_hit (comparable : D → Bool) (expiration : Int)
    (cache : lru.Cache (Key D) (entry D)) (hc : lru.WF cache) (now now2 : Int) (q : query D E)
    (hk : Key.str q.key ∉ lru.keys cache) (d : Value D) (hp : q.producer q.key = (d, none)) :
    ∃ o, serve comparable expiration cache now now2 q = some o ∧
      o.result = { Metrics := { q.result.Metrics with Miss := true }, Request := d } ∧
      o.requests = [q.key] ∧
      o.replies = [(none, o.result)] ∧
      receive o = some (o.result, none) ∧
      (0 ≤ cache.Size →
        lru.WF o.cache ∧
        lru.entries o.cache
          = (if cache.Size ≠ 0 ∧ ((lru.Len cache : Int) + 1) > cache.Size
              then (Key.str q.key, ⟨d, now2 + expiration⟩) :: (lru.entries cache).dropLast
              else (Key.str q.key, ⟨d, now2 + expiration⟩) :: lru.entries cache) ∧
        Key.str q.key ∈ lru.indexed o.cache ∧
        (∀ (now' now2' : Int) (q' : query D E), q'.key = q.key →
          (expiration = 0 ∨ ¬ now' > now2 + expiration) →
          ∃ o', serve comparable expiration o.cache now' now2' q' = some o' ∧
            o'.result.Metrics = { q'.result.Metrics with Hit := true } ∧
            o'.replies.head? = some (none, { Metrics := { q'.result.Metrics with Hit := true },
                                             Request := d })) ∧
        (0 ≤ expiration → ∀ (now2' : Int) (q' : query D E), q'.key = q.key →
          ∃ o', serve comparable expiration o.cache now2 now2' q' = some o' ∧
            o'.result.Metrics = { q'.result.Metrics with Hit := true } ∧
            o'.replies.head? = some (none, { Metrics := { q'.result.Metrics with Hit := true },
                                             Request := d }))) := by
  obtain ⟨cache', h1, h2⟩ := serve_miss_success comparable expiration cache hc now now2 q hk d hp
  refine ⟨_, h2, rfl, rfl, rfl, rfl, fun hsize => ?_⟩
  obtain ⟨c₁, h3, hwf, h4⟩ := lru.Set_absent_nonneg cache hc hsize (Key.str q.key)
    { data := d, expiry := now2 + expiration } hk
  have hc₁ : c₁ = cache' := Option.some.inj (h3.symm.trans h1)
  subst hc₁
  have hmem : (Key.str q.key, (⟨d, now2 + expiration⟩ : entry D)) ∈ lru.entries c₁ := by
    rw [h4]
    split <;> exact List.mem_cons_self _ _
  have hnext : ∀ (now' now2' : Int) (q' : query D E), q'.key = q.key →
      (expiration = 0 ∨ ¬ now' > now2 + expiration) →
      ∃ o', serve comparable expiration c₁ now' now2' q' = some o' ∧
        o'.result.Metrics = { q'.result.Metrics with Hit := true } ∧
        o'.replies.head? = some (none, { Metrics := { q'.result.Metrics with Hit := true },
                                         Request := d }) := by
    intro now' now2' q' hq hfresh
    exact serve_hit_first comparable expiration c₁ hwf now' now2' q'
      ⟨d, now2 + expiration⟩ (hq ▸ hmem) hfresh
  refine ⟨hwf, h4, ?_, hnext, fun hexp now2' q' hq => ?_⟩
  · exact (hwf.mem_indexed_iff _).2 (List.mem_map.2 ⟨_, hmem, rfl⟩)
  · exact hnext now2 now2' q' hq (Or.inr (by omega))

theorem serve_miss_then_hit_witness :
    (lru.WF cached ∧ Key.str "j" ∉ lru.keys cached ∧
      succeed "j" = (Value.data "new", none)) ∧
    ∃ o, serve (fun _ => true) 10 cached 50 60 ⟨request "0", "j", succeed⟩ = some o ∧
      o.result.Metrics.Miss = true ∧ o.result.Request = Value.data "new" ∧
      o.requests = ["j"] ∧ receive o = some (o.result, none) ∧
      lru.WF o.cache ∧ Key.str "j" ∈ lru.indexed o.cache ∧
      (∃ o', serve (fun _ => true) 10 o.cache 65 66 ⟨request "0", "j", fail⟩ = some o' ∧
        o'.result.Metrics = { (request "0" : Result String).Metrics with Hit := true } ∧
        o'.replies.head? = some (none,
          { Metrics := { (request "0" : Result String).Metrics with Hit := true },
            Request := Value.data "new" })) ∧
      ∃ o', serve (fun _ => true) 10 o.cache 60 61 ⟨request "0", "j", fail⟩ = some o' ∧
        o'.result.Metrics = { (request "0" : Result String).Metrics with Hit := true } :=
  ⟨⟨cached_WF, by decide, rfl⟩, by
    obtain ⟨o, h1, h2, h3, _, h5, h6⟩ :=
      serve_miss_then_hit (fun _ => true) 10 cached cached_WF 50 60
        ⟨request "0", "j", succeed⟩ (by decide) (Value.data "new") rfl
    obtain ⟨h7, _, h8, h9, h10⟩ := h6 (by decide)
    obtain ⟨o', h11, h12, h13⟩ := h9 65 66 ⟨request "0", "j", fail⟩ rfl (Or.inr (by decide))
    obtain ⟨o'', h14, h15, _⟩ := h10 (by decide) 61 ⟨request "0", "j", fail⟩ rfl
    exact ⟨o, h1, by rw [h2], by rw [h2], h3, h5, h7, h8, ⟨o', h11, h12, h13⟩,
      o'', h14, h15⟩⟩

end proxy
